import Mathlib

/-!
Shallow embedding of `rewrite.go` from the `generic` repository.

The repository rewrites a parsed Go package: it renames the package,
deletes mapped bare type aliases, substitutes placeholder type
identifiers with concrete target types (tracking the imports those
targets need), optionally prefixes all top-level identifiers (for
same-directory emission), type-checks the result, and finally emits the
rewritten files.

Modelling conventions, all explained next to the definitions they touch:
* Go AST nodes become plain inductive data.  Pointer identity of a
  declaration node (used by the code as a map key and as the value of
  `ast.Object.Decl`) is modelled by a stable numeric id carried on the
  declaration.
* In-place mutation becomes pure functions from trees to trees.
* Go maps with string keys become association lists looked up
  first-match; the `declMap` built with overwriting assignments becomes
  a left fold of overwriting inserts.
* File-system and type-checker effects in `RewritePackage` become an
  explicit trace of attempted effects plus oracles telling which
  operations succeed.
-/

namespace Generic

/-- `Target` from the repository (the file defining it sits next to
`rewrite.go`; its shape is fixed by the spec's data model: concrete
type name plus optional originating import path). -/
structure Target where
  Ident : String
  Import : String
deriving DecidableEq, Repr

/-- `map[string]Target`: association list, first match wins (Go map
keys are unique). -/
abbrev TypeMap := List (String × Target)

/-- Go map lookup `typeMap[name]`. -/
def lookupType (m : TypeMap) (k : String) : Option Target :=
  match m with
  | [] => none
  | (k', v) :: rest => if k' = k then some v else lookupType rest k

/-- `ast.ObjKind`. -/
inductive ObjKind where
  | bad | pkg | con | typ | var | fn | lbl
deriving DecidableEq, Repr

/-- `ast.Object`: the resolved object attached to an identifier.
`name` is the name the object was declared under (never updated by the
rewrite passes); `decl` is the id of the declaring node (`Obj.Decl`),
`none` modelling a nil `Decl` field. -/
structure Obj where
  kind : ObjKind
  name : String
  decl : Option Nat
deriving DecidableEq, Repr

/-- `ast.Ident`: a name plus optional resolved object (`Obj == nil`
becomes `none`). -/
structure Ident where
  name : String
  obj : Option Obj
deriving DecidableEq, Repr

/-- The id of the declaration an identifier is bound to, if any
(`x.Obj.Decl` after the nil checks). -/
def Ident.declRef (i : Ident) : Option Nat :=
  match i.obj with
  | none => none
  | some o => o.decl

/-- Go expressions (`ast.Expr`), restricted to the structure the
rewriter inspects: identifiers and enough composite shapes to embed
struct/interface/function types, selectors and calls.  Go's field and
argument lists are embedded as `fieldCons`/`exprCons` chains ended by
`nilE`, which keeps every recursion structural. -/
inductive Expr where
  | ident (i : Ident)
  | selector (x : Expr) (sel : Ident)
  | star (e : Expr)
  | arrayT (elt : Expr)
  | funcT (params : Expr) (results : Expr)
  | structT (fields : Expr)
  | interfaceT (methods : Expr)
  | call (fn : Expr) (args : Expr)
  | fieldCons (nm : Ident) (ty : Expr) (rest : Expr)
  | exprCons (e : Expr) (rest : Expr)
  | nilE
  | basicLit (v : String)
deriving DecidableEq, Repr

/-- Statements (`ast.Stmt`), as identifier containers. -/
inductive Stmt where
  | exprStmt (e : Expr)
  | assign (lhs : Expr) (rhs : Expr)
  | ret (e : Expr)
deriving DecidableEq, Repr

/-- `ast.FuncDecl`: id models the node's identity, `recv` a non-nil
receiver field list, `ftype` the `*ast.FuncType`, `body` the block. -/
structure FuncDecl where
  id : Nat
  recv : Option Expr
  name : Ident
  ftype : Expr
  body : List Stmt
deriving DecidableEq, Repr

/-- `ast.Spec` inside a `GenDecl`: `TypeSpec` or `ValueSpec` (import
specs are modelled by the separate `imports` field of `File`; none of
the rewrite passes touches an import spec's identifiers). -/
inductive Spec where
  | typeSpec (id : Nat) (name : Ident) (ty : Expr)
  | valueSpec (id : Nat) (names : List Ident) (ty : Option Expr) (values : List Expr)
deriving DecidableEq, Repr

/-- `token.Token` values distinguished by the rewriter. -/
inductive Tok where
  | IMPORT | CONST | TYPE | VAR
deriving DecidableEq, Repr

/-- `ast.Decl`: function declarations and generic declarations. -/
inductive Decl where
  | funcDecl (fd : FuncDecl)
  | genDecl (tok : Tok) (specs : List Spec)
deriving DecidableEq, Repr

/-- `ast.File`: package-name identifier, import paths (the paths of the
file's import declarations) and top-level declarations. -/
structure File where
  name : Ident
  imports : List String
  decls : List Decl
deriving DecidableEq, Repr

/-! ### Identifier traversal

`ast.Inspect` visits every node; the rewrite passes only ever act on
`*ast.Ident` nodes and always return `false` on them (identifiers have
no children), so a whole-file pass is exactly a map over all identifier
occurrences, and the set of inspected identifiers is the collection
below.  `File.Name` is visited by `ast.Inspect` as well. -/

/-- Apply `g` to every identifier occurrence of an expression. -/
def Expr.mapIdents (g : Ident → Ident) : Expr → Expr
  | .ident i => .ident (g i)
  | .selector x sel => .selector (x.mapIdents g) (g sel)
  | .star e => .star (e.mapIdents g)
  | .arrayT e => .arrayT (e.mapIdents g)
  | .funcT p r => .funcT (p.mapIdents g) (r.mapIdents g)
  | .structT fs => .structT (fs.mapIdents g)
  | .interfaceT ms => .interfaceT (ms.mapIdents g)
  | .call f a => .call (f.mapIdents g) (a.mapIdents g)
  | .fieldCons nm ty rest => .fieldCons (g nm) (ty.mapIdents g) (rest.mapIdents g)
  | .exprCons e rest => .exprCons (e.mapIdents g) (rest.mapIdents g)
  | .nilE => .nilE
  | .basicLit v => .basicLit v

/-- All identifier occurrences of an expression, in visit order. -/
def Expr.idents : Expr → List Ident
  | .ident i => [i]
  | .selector x sel => x.idents ++ [sel]
  | .star e => e.idents
  | .arrayT e => e.idents
  | .funcT p r => p.idents ++ r.idents
  | .structT fs => fs.idents
  | .interfaceT ms => ms.idents
  | .call f a => f.idents ++ a.idents
  | .fieldCons nm ty rest => nm :: ty.idents ++ rest.idents
  | .exprCons e rest => e.idents ++ rest.idents
  | .nilE => []
  | .basicLit _ => []

def Stmt.mapIdents (g : Ident → Ident) : Stmt → Stmt
  | .exprStmt e => .exprStmt (e.mapIdents g)
  | .assign l r => .assign (l.mapIdents g) (r.mapIdents g)
  | .ret e => .ret (e.mapIdents g)

def Stmt.idents : Stmt → List Ident
  | .exprStmt e => e.idents
  | .assign l r => l.idents ++ r.idents
  | .ret e => e.idents

def FuncDecl.mapIdents (g : Ident → Ident) (fd : FuncDecl) : FuncDecl :=
  { fd with
    recv := fd.recv.map (Expr.mapIdents g)
    name := g fd.name
    ftype := fd.ftype.mapIdents g
    body := fd.body.map (Stmt.mapIdents g) }

def FuncDecl.idents (fd : FuncDecl) : List Ident :=
  (match fd.recv with | none => [] | some r => r.idents) ++
    fd.name :: fd.ftype.idents ++ (fd.body.map Stmt.idents).flatten

def Spec.mapIdents (g : Ident → Ident) : Spec → Spec
  | .typeSpec i nm ty => .typeSpec i (g nm) (ty.mapIdents g)
  | .valueSpec i nms ty vs =>
      .valueSpec i (nms.map g) (ty.map (Expr.mapIdents g)) (vs.map (Expr.mapIdents g))

def Spec.idents : Spec → List Ident
  | .typeSpec _ nm ty => nm :: ty.idents
  | .valueSpec _ nms ty vs =>
      nms ++ (match ty with | none => [] | some t => t.idents) ++ (vs.map Expr.idents).flatten

def Decl.mapIdents (g : Ident → Ident) : Decl → Decl
  | .funcDecl fd => .funcDecl (fd.mapIdents g)
  | .genDecl tok specs => .genDecl tok (specs.map (Spec.mapIdents g))

def Decl.idents : Decl → List Ident
  | .funcDecl fd => fd.idents
  | .genDecl _ specs => (specs.map Spec.idents).flatten

/-- One `ast.Inspect`-style pass acting on every identifier of a file
(the package-name identifier included, as `ast.Inspect` visits it). -/
def mapFileIdents (g : Ident → Ident) (f : File) : File :=
  { f with name := g f.name, decls := f.decls.map (Decl.mapIdents g) }

/-- All identifier occurrences of a file, in visit order. -/
def fileIdents (f : File) : List Ident :=
  f.name :: (f.decls.map Decl.idents).flatten

/-! ### Pass 1: `rewritePkgName` -/

/-- `rewritePkgName`: sets the file's package name
(`node.Name.Name = pkgName`; the identifier's object is untouched). -/
def rewritePkgName (node : File) (pkgName : String) : File :=
  { node with name := { node.name with name := pkgName } }

/-! ### Pass 2: `removeTypeDecl` -/

/-- The per-spec test inside `removeTypeDecl`'s inner loop: the spec's
name is a key of `typeMap` and the right-hand definition is a bare
`*ast.Ident`.  The Go code's `spec.(*ast.TypeSpec)` assertion cannot
fail (the parser puts only type specs in a `TYPE` declaration), so a
value spec is mapped to `false`. -/
def specRemovable (typeMap : TypeMap) : Spec → Bool
  | .typeSpec _ nm ty =>
      (lookupType typeMap nm.name).isSome &&
        (match ty with | .ident _ => true | _ => false)
  | .valueSpec .. => false

/-- The whole-declaration test of `removeTypeDecl`: a `GenDecl` with
token `TYPE` is removed whole as soon as one of its specs passes
`specRemovable` (`remove = true; break`). -/
def shouldRemoveDecl (typeMap : TypeMap) : Decl → Bool
  | .genDecl tok specs => tok == Tok.TYPE && specs.any (specRemovable typeMap)
  | .funcDecl _ => false

/-- The backwards removal loop of `removeTypeDecl`
(`for i := len(node.Decls)-1; i >= 0; i--` with slice splicing), as a
right-to-left recursion. -/
def removeDecls (typeMap : TypeMap) : List Decl → List Decl
  | [] => []
  | d :: rest =>
      let rest' := removeDecls typeMap rest
      if shouldRemoveDecl typeMap d then rest' else d :: rest'

/-- `removeTypeDecl`: removes type declarations defined in `typeMap`. -/
def removeTypeDecl (node : File) (typeMap : TypeMap) : File :=
  { node with decls := removeDecls typeMap node.decls }

/-! ### Pass 3: `rewriteIdent` -/

/-- The per-identifier body of `rewriteIdent`'s `ast.Inspect` callback:
skip identifiers with no object or with a non-type object, skip names
that are not keys of the map, otherwise rename to the target's
concrete name. -/
def rewriteIdent1 (typeMap : TypeMap) (i : Ident) : Ident :=
  match i.obj with
  | none => i
  | some o =>
      if o.kind ≠ ObjKind.typ then i
      else
        match lookupType typeMap i.name with
        | none => i
        | some tgt => { i with name := tgt.Ident }

/-- The import that one identifier occurrence asks `rewriteIdent` to
record: present exactly when the identifier is renamed and the
target's import path is non-empty. -/
def identImport (typeMap : TypeMap) (i : Ident) : Option String :=
  match i.obj with
  | none => none
  | some o =>
      if o.kind ≠ ObjKind.typ then none
      else
        match lookupType typeMap i.name with
        | none => none
        | some tgt => if tgt.Import = "" then none else some tgt.Import

/-- One step of the `used` accumulation: a required import path is
appended on first sight only (the linear `found` scan is membership in
the list built so far). -/
def usedStep (typeMap : TypeMap) (used : List String) (i : Ident) : List String :=
  match identImport typeMap i with
  | none => used
  | some im => if im ∈ used then used else used ++ [im]

/-- The `used` list accumulated during the traversal. -/
def usedImports (typeMap : TypeMap) (ids : List Ident) : List String :=
  ids.foldl (usedStep typeMap) []

/-- `astutil.AddImport`: adds the path to the file's import
declarations if it is not already imported, otherwise leaves the file
unchanged. -/
def addImport (f : File) (path : String) : File :=
  if path ∈ f.imports then f else { f with imports := f.imports ++ [path] }

/-- `rewriteIdent`: converts placeholder type identifiers to their
replacement defined in `typeMap` and then adds each used import.  The
single Go traversal both renames and accumulates `used`; each
identifier is read before it is renamed and identifiers share no
mutable name state, so the accumulation over the original identifiers
is exact. -/
def rewriteIdent (node : File) (typeMap : TypeMap) : File :=
  let used := usedImports typeMap (fileIdents node)
  used.foldl addImport (mapFileIdents (rewriteIdent1 typeMap) node)

/-! ### `findDecl` (stub extraction for same-directory validation) -/

/-- The dummy identifier `findDecl` puts in place of every type
definition (`&ast.Ident{Name: "uint32"}`: a fresh node, no object). -/
def uint32Ident : Expr := .ident { name := "uint32", obj := none }

/-- The spec reduction inside `findDecl`: every type spec's definition
is replaced by the neutral scalar.  As in `removeTypeDecl`, the
`*ast.TypeSpec` assertion cannot fail for a `TYPE` declaration, so a
value spec passes through. -/
def reduceTypeSpec : Spec → Spec
  | .typeSpec i nm _ => .typeSpec i nm uint32Ident
  | s => s

/-- `findDecl`: keeps exactly the `TYPE` declarations of the file, with
every definition replaced by the dummy identifier. -/
def findDecl (node : File) : List Decl :=
  node.decls.filterMap fun d =>
    match d with
    | .genDecl tok specs =>
        if tok = Tok.TYPE then some (.genDecl tok (specs.map reduceTypeSpec)) else none
    | .funcDecl _ => none

/-! ### Pass 4: `rewriteTopLevelIdent` -/

/-- Modelled from the spec: the repository's `lintName` helper (defined
in a sibling file of `rewrite.go` that is not part of the sources under
verification) normalises a generated name.  The spec describes the
renaming as plain concatenation — "renamed by prepending a
caller-specified prefix", with the scenario prefix "gen" and function
`Process` yielding `gen_Process` — so the model takes the helper to be
the identity on the concatenated name. -/
def lintName (name : String) : String := name

/-- `prefixIdent` inside `rewriteTopLevelIdent`:
`lintName(fmt.Sprintf("%s_%s", prefix, name))`. -/
def prefixIdent (pfx : String) (name : String) : String :=
  lintName (pfx ++ "_" ++ name)

/-- The skip condition for a type spec: its object is a type object
whose declared name is a key of `typeMap` and whose current name
already equals that target's concrete name (it was renamed by
`rewriteIdent`), so it must not be prefixed again. -/
def skipSpec (typeMap : TypeMap) (nm : Ident) : Bool :=
  match nm.obj with
  | none => false
  | some o =>
      o.kind == ObjKind.typ &&
        (match lookupType typeMap o.name with
         | none => false
         | some tgt => nm.name == tgt.Ident)

/-- Renaming of one spec, returning the renamed spec together with the
`declMap` entry it writes (the declaration rewrite never reads
`declMap`, so the map is equivalently the left fold of the entries
emitted in order).  A value spec writes `declMap[spec] = ident.Name`
once per name, so only the last name's entry survives. -/
def renameSpec (pfx : String) (typeMap : TypeMap) : Spec → Spec × Option (Nat × String)
  | .typeSpec i nm ty =>
      if skipSpec typeMap nm then (.typeSpec i nm ty, none)
      else
        let newName := prefixIdent pfx nm.name
        (.typeSpec i { nm with name := newName } ty, some (i, newName))
  | .valueSpec i nms ty vs =>
      let nms' := nms.map fun n => { n with name := prefixIdent pfx n.name }
      match nms'.getLast? with
      | none => (.valueSpec i nms' ty vs, none)
      | some lastN => (.valueSpec i nms' ty vs, some (i, lastN.name))

/-- Renaming of one declaration: a function declaration with a receiver
is skipped; a receiverless one is renamed and registered; a generic
declaration renames each spec. -/
def renameDecl (pfx : String) (typeMap : TypeMap) : Decl → Decl × List (Nat × String)
  | .funcDecl fd =>
      if fd.recv.isSome then (.funcDecl fd, [])
      else
        let newName := prefixIdent pfx fd.name.name
        (.funcDecl { fd with name := { fd.name with name := newName } }, [(fd.id, newName)])
  | .genDecl tok specs =>
      let rs := specs.map (renameSpec pfx typeMap)
      (.genDecl tok (rs.map Prod.fst), rs.filterMap Prod.snd)

/-- Phase one of `rewriteTopLevelIdent` over the declaration list,
returning the renamed declarations and the `declMap` entries in write
order. -/
def renameDecls (pfx : String) (typeMap : TypeMap) (ds : List Decl) :
    List Decl × List (Nat × String) :=
  let rs := ds.map (renameDecl pfx typeMap)
  (rs.map Prod.fst, (rs.map Prod.snd).flatten)

/-- Overwriting insert, modelling Go map assignment `declMap[k] = v`. -/
def mapInsert (dm : List (Nat × String)) (k : Nat) (v : String) : List (Nat × String) :=
  match dm with
  | [] => [(k, v)]
  | (k', v') :: rest => if k' = k then (k, v) :: rest else (k', v') :: mapInsert rest k v

/-- Go map lookup `declMap[k]`. -/
def mapLookup (dm : List (Nat × String)) (k : Nat) : Option String :=
  match dm with
  | [] => none
  | (k', v) :: rest => if k' = k then some v else mapLookup rest k

/-- The `declMap` of `rewriteTopLevelIdent` for a declaration list: the
entries written during phase one, applied in order. -/
def declMapOf (pfx : String) (typeMap : TypeMap) (ds : List Decl) : List (Nat × String) :=
  ((renameDecls pfx typeMap ds).2).foldl (fun dm e => mapInsert dm e.1 e.2) []

/-- The per-identifier body of phase two's `ast.Inspect` callback: an
identifier bound to a declaration registered in `declMap` takes the
registered new name. -/
def rewriteUseIdent (dm : List (Nat × String)) (i : Ident) : Ident :=
  match i.obj with
  | none => i
  | some o =>
      match o.decl with
      | none => i
      | some d =>
          match mapLookup dm d with
          | none => i
          | some nm => { i with name := nm }

/-- `rewriteTopLevelIdent`: adds a prefix to top-level identifiers
(phase one) and rewrites every identifier occurrence bound to a renamed
declaration (phase two; `ast.Inspect` also revisits the declaring
identifiers themselves). -/
def rewriteTopLevelIdent (node : File) (pfx : String) (typeMap : TypeMap) : File :=
  mapFileIdents (rewriteUseIdent (declMapOf pfx typeMap node.decls))
    { node with decls := (renameDecls pfx typeMap node.decls).1 }

/-! ### `parsePackageTarget` and the `RewritePackage` pipeline -/

/-- `packageTarget` from the source. -/
structure packageTarget where
  SameDir : Bool
  NewName : String
  NewPath : String
deriving DecidableEq, Repr

/-- Errors surfaced by the modelled run. -/
inductive RunErr where
  | gopackageEmpty
  | checkErr
  | createErr (path : String)
  | writeErr (path : String)
  | removeErr
  | mkdirErr
deriving DecidableEq, Repr

/-- `strings.HasPrefix(path, ".")`, over the string's character list
(so that the definition evaluates by computation): the first character
is a dot. -/
def startsWithDot (s : String) : Bool :=
  match s.data with
  | [] => false
  | c :: _ => c == '.'

/-- `strings.TrimPrefix(path, ".")` under the guarantee that the prefix
is present: drop the one leading character. -/
def dropDot (s : String) : String := ⟨s.data.drop 1⟩

/-- `filepath.Base` restricted to slash-separated non-empty cleaned
paths (the form source-file paths and destination paths take here):
the suffix after the last '/'. -/
def baseName (p : String) : String :=
  ⟨(p.data.reverse.takeWhile (fun c => c != '/')).reverse⟩

/-- `parsePackageTarget`, with the `GOPACKAGE` environment value passed
explicitly. -/
def parsePackageTarget (gopackage : String) (path : String) :
    Except RunErr packageTarget :=
  if startsWithDot path then
    if gopackage = "" then .error .gopackageEmpty
    else .ok { SameDir := true, NewPath := dropDot path, NewName := gopackage }
  else .ok { SameDir := false, NewPath := path, NewName := baseName path }

/-- The per-file rewrite sequence of `RewritePackage` (the body of the
`for path, f := range files` loop before the refresh).  The
print/reparse refresh that follows is modelled as the identity on the
tree: it preserves the printed content, and nothing downstream of it
reads binding state (the checker is an oracle over the tree list and
emission prints names only). -/
def rewriteOneFile (pt : packageTarget) (typeMap : TypeMap) (f : File) : File :=
  let f1 := rewritePkgName f pt.NewName
  let f2 := removeTypeDecl f1 typeMap
  let f3 := rewriteIdent f2 typeMap
  if pt.SameDir then rewriteTopLevelIdent f3 pt.NewPath typeMap else f3

/-- The synthetic checker-only files built from the sibling sources in
same-directory mode: one `ast.File{Decls: decl, Name: f.Name}` per
sibling whose `findDecl` result is non-empty. -/
def stubFiles (sibs : List File) : List File :=
  sibs.filterMap fun f =>
    let decl := findDecl f
    if decl = [] then none else some { name := f.name, imports := [], decls := decl }

/-- The list of trees handed to the type checker (`tc`): the rewritten
files in load order, plus, in same-directory mode, the stub files. -/
def checkedTrees (pt : packageTarget) (typeMap : TypeMap)
    (files : List (String × File)) (sibs : List File) : List File :=
  let rewritten := files.map fun p => rewriteOneFile pt typeMap p.2
  if pt.SameDir then rewritten ++ stubFiles sibs else rewritten

/-- Successful file-system effects of a run, in order. -/
inductive FsOp where
  | removeAll (path : String)
  | mkdirAll (path : String)
  | createFile (path : String)
  | writeTree (path : String) (tree : File)
  | diagDump (tree : File)
deriving DecidableEq, Repr

/-- Oracles deciding which external operations succeed: the outcome of
`conf.Check`, of `os.RemoveAll`/`os.MkdirAll` on the destination, and
of `os.Create`/`format.Node` per output path. -/
structure FsEnv where
  checkOk : Bool
  removeOk : Bool
  mkdirOk : Bool
  createOk : String → Bool
  writeOk : String → Bool

/-- The same-directory emission loop: for each rewritten file, create
`<prefix>_<base>` and print the tree into it; the first failure stops
the loop with no rollback. -/
def emitFilesSame (env : FsEnv) (pfx : String) :
    List (String × File) → List FsOp × Option RunErr
  | [] => ([], none)
  | (src, t) :: rest =>
      let out := pfx ++ "_" ++ baseName src
      if ¬ env.createOk out then ([], some (.createErr out))
      else if ¬ env.writeOk out then ([.createFile out], some (.writeErr out))
      else (.createFile out :: .writeTree out t :: (emitFilesSame env pfx rest).1,
        (emitFilesSame env pfx rest).2)

/-- The new-package emission loop: for each rewritten file, create
`<dest>/<base>` and print the tree into it; the first failure stops the
loop. -/
def emitFilesNew (env : FsEnv) (dest : String) :
    List (String × File) → List FsOp × Option RunErr
  | [] => ([], none)
  | (src, t) :: rest =>
      let out := dest ++ "/" ++ baseName src
      if ¬ env.createOk out then ([], some (.createErr out))
      else if ¬ env.writeOk out then ([.createFile out], some (.writeErr out))
      else (.createFile out :: .writeTree out t :: (emitFilesNew env dest rest).1,
        (emitFilesNew env dest rest).2)

/-- New-package emission: remove any existing destination directory,
create a fresh one, write each file; on a failure inside the loop the
deferred `os.RemoveAll(pt.NewPath)` (guarded by `err != nil`) removes
the partially created destination before the error is returned. -/
def emitNewPkg (env : FsEnv) (dest : String) (files : List (String × File)) :
    List FsOp × Option RunErr :=
  if ¬ env.removeOk then ([], some .removeErr)
  else if ¬ env.mkdirOk then ([.removeAll dest], some .mkdirErr)
  else
    match (emitFilesNew env dest files).2 with
    | none => (.removeAll dest :: .mkdirAll dest :: (emitFilesNew env dest files).1, none)
    | some err =>
        (.removeAll dest :: .mkdirAll dest ::
          ((emitFilesNew env dest files).1 ++ [.removeAll dest]), some err)

/-- `RewritePackage`, from the point where the template files are
parsed (`files` is the parsed map as an association list in enumeration
order, `sibs` the parsed same-directory sibling files): rewrite every
file, type-check all rewritten trees plus stubs, then emit.  On a
checker failure every checked tree is dumped to the diagnostic stream
and the checker error is returned, before any file-system effect. -/
def RewritePackage (gopackage newPkgPath : String) (typeMap : TypeMap)
    (files : List (String × File)) (sibs : List File) (env : FsEnv) :
    List FsOp × Option RunErr :=
  match parsePackageTarget gopackage newPkgPath with
  | .error e => ([], some e)
  | .ok pt =>
      let rewritten := files.map fun p => (p.1, rewriteOneFile pt typeMap p.2)
      if ¬ env.checkOk then
        ((checkedTrees pt typeMap files sibs).map FsOp.diagDump, some .checkErr)
      else if pt.SameDir then emitFilesSame env pt.NewPath rewritten
      else emitNewPkg env pt.NewPath rewritten


/-! ### Auxiliary views used by the theorems -/

/-- The specs of a declaration (empty for a function declaration). -/
def Decl.specs : Decl → List Spec
  | .funcDecl _ => []
  | .genDecl _ specs => specs

/-- The node id of a spec. -/
def Spec.id : Spec → Nat
  | .typeSpec i .. => i
  | .valueSpec i .. => i

/-- The node ids a declaration carries. -/
def Decl.ids : Decl → List Nat
  | .funcDecl fd => [fd.id]
  | .genDecl _ specs => specs.map Spec.id

/-- All top-level node ids of a file.  Ids model pointer identity of
the declaration nodes, so in any file produced by the parser they are
pairwise distinct; theorems about the declaration-to-new-name map take
that as a hypothesis. -/
def declIds (f : File) : List Nat := (f.decls.map Decl.ids).flatten

/-- The `declMap` key a spec writes during prefixing, if it writes one:
a type spec writes its own id unless the skip condition holds, a value
spec writes its own id unless it declares no names. -/
def Spec.activeId (m : TypeMap) : Spec → Option Nat
  | .typeSpec i nm _ => if skipSpec m nm then none else some i
  | .valueSpec i nms _ _ => if nms = [] then none else some i

/-- The `declMap` keys a declaration writes during prefixing. -/
def Decl.activeIds (m : TypeMap) : Decl → List Nat
  | .funcDecl fd => if fd.recv.isSome then [] else [fd.id]
  | .genDecl _ specs => specs.filterMap (Spec.activeId m)

/-! ### Concrete inputs used by counterexamples and witnesses -/

/-- A bare alias spec `type Item int` whose name is mapped. -/
def aliasItemSpec : Spec :=
  .typeSpec 0 { name := "Item", obj := some { kind := .typ, name := "Item", decl := some 0 } }
    (.ident { name := "int", obj := none })

/-- A structured (record-shaped) spec `type Box struct { n int }`. -/
def recordBoxSpec : Spec :=
  .typeSpec 1 { name := "Box", obj := some { kind := .typ, name := "Box", decl := some 1 } }
    (.structT (.fieldCons { name := "n", obj := none }
      (.ident { name := "int", obj := none }) .nilE))

/-- One declaration block grouping the removable alias with the
structured spec: `type ( Item int ; Box struct { n int } )`. -/
def groupedTypeDecl : Decl := .genDecl .TYPE [aliasItemSpec, recordBoxSpec]

/-- A template file holding only the grouped block. -/
def groupedFile : File :=
  { name := { name := "tmpl", obj := none }, imports := [], decls := [groupedTypeDecl] }

/-- The substitution map `{"Item": {Ident: "MyRecord", Import: "extpkg"}}`. -/
def itemMap : TypeMap := [("Item", { Ident := "MyRecord", Import := "extpkg" })]

/-- A file holding the structured spec alone in its own block. -/
def soloBoxFile : File :=
  { name := { name := "tmpl", obj := none }, imports := [],
    decls := [.genDecl .TYPE [recordBoxSpec]] }

/-- A use of the placeholder type `Item`, resolved to the alias node. -/
def itemUseIdent : Ident :=
  { name := "Item", obj := some { kind := .typ, name := "Item", decl := some 0 } }

/-- A file with a function `func F(x Item) Item` mentioning `Item`
twice, and no imports. -/
def twoItemFile : File :=
  { name := { name := "tmpl", obj := none }, imports := [],
    decls := [.funcDecl
      { id := 1, recv := none,
        name := { name := "F", obj := some { kind := .fn, name := "F", decl := some 1 } },
        ftype := .funcT (.fieldCons { name := "x", obj := none } (.ident itemUseIdent) .nilE)
          (.exprCons (.ident itemUseIdent) .nilE),
        body := [] }] }

/-- The identifier of the top-level function `Process`. -/
def processIdent : Ident :=
  { name := "Process", obj := some { kind := .fn, name := "Process", decl := some 0 } }

/-- The declaration of `func Process()`. -/
def processFunc : FuncDecl :=
  { id := 0, recv := none, name := processIdent, ftype := .funcT .nilE .nilE, body := [] }

/-- A file declaring `func Process()` plus a second function whose body
calls `Process()`. -/
def processFile : File :=
  { name := { name := "tmpl", obj := none }, imports := [],
    decls :=
      [.funcDecl processFunc,
       .funcDecl
        { id := 1, recv := none,
          name := { name := "Run", obj := some { kind := .fn, name := "Run", decl := some 1 } },
          ftype := .funcT .nilE .nilE,
          body := [.exprStmt (.call (.ident processIdent) .nilE)] }] }

/-- The declaring identifier `a` of `var a, b int` (spec node id 3). -/
def aIdent : Ident :=
  { name := "a", obj := some { kind := .var, name := "a", decl := some 3 } }

/-- The declaring identifier `b` of `var a, b int` (spec node id 3). -/
def bIdent : Ident :=
  { name := "b", obj := some { kind := .var, name := "b", decl := some 3 } }

/-- A value spec `var a, b int` declaring two names, both bound to the
spec node (id 3). -/
def abValueSpec : Spec :=
  .valueSpec 3 [aIdent, bIdent] (some (.ident { name := "int", obj := none })) []

/-- A file with `var a, b int` and a function returning `a`. -/
def abFile : File :=
  { name := { name := "tmpl", obj := none }, imports := [],
    decls :=
      [.genDecl .VAR [abValueSpec],
       .funcDecl
        { id := 4, recv := none,
          name := { name := "G", obj := some { kind := .fn, name := "G", decl := some 4 } },
          ftype := .funcT .nilE .nilE,
          body := [.ret (.ident aIdent)] }] }

/-- A file with a structured type declaration (`type Box struct`, whose
name is not mapped, so not skipped by prefixing) and `var a, b int`. -/
def mixedFile : File :=
  { name := { name := "tmpl", obj := none }, imports := [],
    decls := [.genDecl .TYPE [recordBoxSpec], .genDecl .VAR [abValueSpec]] }

/-- An environment in which every external operation succeeds. -/
def envAllOk : FsEnv :=
  { checkOk := true, removeOk := true, mkdirOk := true,
    createOk := fun _ => true, writeOk := fun _ => true }

/-- An environment in which the semantic type check fails. -/
def envCheckFails : FsEnv := { envAllOk with checkOk := false }

/-- An environment in which creating the output file for `b.go` fails. -/
def envCreateBFails : FsEnv :=
  { envAllOk with createOk := fun p => ¬ (p = "dst/b.go") }

/-- Two parsed template files. -/
def twoFiles : List (String × File) :=
  [("tpl/a.go", groupedFile), ("tpl/b.go", twoItemFile)]

/-- A sibling file carrying a structured type declaration, used to
exercise stub extraction. -/
def sibFile : File :=
  { name := { name := "pkg", obj := none }, imports := [],
    decls := [.genDecl .TYPE [recordBoxSpec]] }

/-! ### Theorems -/


@[simp] theorem expr_idents_map (g : Ident → Ident) (e : Expr) :
    (e.mapIdents g).idents = e.idents.map g := by
  induction e <;> simp [Expr.mapIdents, Expr.idents, *]

@[simp] theorem stmt_idents_map (g : Ident → Ident) (s : Stmt) :
    (s.mapIdents g).idents = s.idents.map g := by
  cases s <;> simp [Stmt.mapIdents, Stmt.idents]

@[simp] theorem funcDecl_idents_map (g : Ident → Ident) (fd : FuncDecl) :
    (fd.mapIdents g).idents = fd.idents.map g := by
  cases fd with
  | mk id recv name ftype body =>
    cases recv <;>
      simp [FuncDecl.mapIdents, FuncDecl.idents, List.map_flatten, Function.comp_def]

@[simp] theorem spec_idents_map (g : Ident → Ident) (s : Spec) :
    (s.mapIdents g).idents = s.idents.map g := by
  cases s with
  | typeSpec i nm ty => simp [Spec.mapIdents, Spec.idents]
  | valueSpec i nms ty vs =>
    cases ty <;>
      simp [Spec.mapIdents, Spec.idents, List.map_flatten, Function.comp_def]

@[simp] theorem decl_idents_map (g : Ident → Ident) (d : Decl) :
    (d.mapIdents g).idents = d.idents.map g := by
  cases d with
  | funcDecl fd => simp [Decl.mapIdents, Decl.idents]
  | genDecl tok specs =>
    simp [Decl.mapIdents, Decl.idents, List.map_flatten, Function.comp_def]

@[simp] theorem fileIdents_mapFileIdents (g : Ident → Ident) (f : File) :
    fileIdents (mapFileIdents g f) = (fileIdents f).map g := by
  simp [mapFileIdents, fileIdents, List.map_flatten, Function.comp_def]

@[simp] theorem imports_mapFileIdents (g : Ident → Ident) (f : File) :
    (mapFileIdents g f).imports = f.imports := rfl

/-! ### Alias removal (`removeTypeDecl`) -/

/-- The backwards removal loop keeps exactly the declarations failing
the removal test, in order. -/
theorem removeDecls_eq_filter (m : TypeMap) (ds : List Decl) :
    removeDecls m ds = ds.filter (fun d => !(shouldRemoveDecl m d)) := by
  induction ds with
  | nil => rfl
  | cons d rest ih =>
    cases h : shouldRemoveDecl m d <;>
      simp [removeDecls, ih, List.filter_cons, h]

/-- Unfolding of the per-spec removal test. -/
theorem specRemovable_iff (m : TypeMap) (s : Spec) :
    specRemovable m s = true ↔
      ∃ sid nm j, s = Spec.typeSpec sid nm (Expr.ident j) ∧
        (lookupType m nm.name).isSome := by
  cases s with
  | typeSpec sid nm ty =>
    cases ty
    case ident j =>
      simp only [specRemovable, Bool.and_eq_true]
      constructor
      · intro h
        exact ⟨sid, nm, j, rfl, h.1⟩
      · rintro ⟨s1, n1, j1, heq, h⟩
        injection heq with h1 h2 h3
        subst h1
        subst h2
        simp [h]
    all_goals simp [specRemovable]
  | valueSpec i nms ty vs => simp [specRemovable]

/-- Unfolding of the whole-declaration removal test. -/
theorem shouldRemoveDecl_iff (m : TypeMap) (d : Decl) :
    shouldRemoveDecl m d = true ↔
      ∃ specs, d = Decl.genDecl Tok.TYPE specs ∧ ∃ s ∈ specs, specRemovable m s = true := by
  cases d with
  | funcDecl fd => simp [shouldRemoveDecl]
  | genDecl tok specs =>
    cases tok <;> simp [shouldRemoveDecl, List.any_eq_true]

/-- C10: the alias-removal pass modifies only the file's top-level
declaration list, and only by deleting whole declarations: the output
declaration list is a subsequence of the input one (every kept
declaration is unchanged and relative order is preserved), while the
package-name identifier and the import declarations are untouched. -/
theorem removeTypeDecl_deletes_whole_decls (node : File) (typeMap : TypeMap) :
    (removeTypeDecl node typeMap).decls.Sublist node.decls ∧
    (removeTypeDecl node typeMap).name = node.name ∧
    (removeTypeDecl node typeMap).imports = node.imports := by
  refine ⟨?_, rfl, rfl⟩
  show (removeDecls typeMap node.decls).Sublist node.decls
  rw [removeDecls_eq_filter]
  exact List.filter_sublist _

/-- C1 counterexample: in `groupedFile` the structured spec
`recordBoxSpec` (a record-shaped type, not itself removable) is grouped
in the same declaration block as the removable alias `aliasItemSpec`;
the claim says it must be preserved verbatim in the output declarations,
but alias removal deletes the whole block and the output declaration
list is empty. -/
theorem removeTypeDecl_grouped_counterexample :
    groupedTypeDecl ∈ groupedFile.decls ∧
    recordBoxSpec ∈ groupedTypeDecl.specs ∧
    specRemovable itemMap recordBoxSpec = false ∧
    (removeTypeDecl groupedFile itemMap).decls = [] := by
  refine ⟨by decide, by decide, by decide, by decide⟩

/-- C1 (amended): alias removal is name-plus-shape scoped at the
granularity of whole declaration blocks: a declaration is deleted only
if it is a `type` block containing at least one spec whose name is a
key of the map and whose right-hand definition is a bare type-name
reference; every declaration none of whose specs passes that test — in
particular a structured declaration in its own block, whatever its
name — is preserved verbatim; and a `type` block containing such a
removable alias spec is deleted whole, together with any structured
specs grouped in it. -/
theorem removeTypeDecl_name_shape_scoped (node : File) (m : TypeMap) :
    (∀ d ∈ node.decls, d ∉ (removeTypeDecl node m).decls →
       ∃ specs, d = Decl.genDecl Tok.TYPE specs ∧
         ∃ s ∈ specs, ∃ sid nm j, s = Spec.typeSpec sid nm (Expr.ident j) ∧
           (lookupType m nm.name).isSome) ∧
    (∀ d ∈ node.decls, (∀ s ∈ d.specs, specRemovable m s = false) →
       d ∈ (removeTypeDecl node m).decls) ∧
    (∀ specs, Decl.genDecl Tok.TYPE specs ∈ node.decls →
       (∃ s ∈ specs, specRemovable m s = true) →
       Decl.genDecl Tok.TYPE specs ∉ (removeTypeDecl node m).decls) := by
  have hout : (removeTypeDecl node m).decls =
      node.decls.filter (fun d => !(shouldRemoveDecl m d)) := by
    show removeDecls m node.decls = _
    exact removeDecls_eq_filter m node.decls
  refine ⟨?_, ?_, ?_⟩
  · intro d hd hnot
    have hrem : shouldRemoveDecl m d = true := by
      by_contra h
      exact hnot (hout ▸ List.mem_filter.mpr ⟨hd, by simp [Bool.eq_false_iff.mpr h]⟩)
    obtain ⟨specs, rfl, s, hs, hsr⟩ := (shouldRemoveDecl_iff m d).mp hrem
    obtain ⟨sid, nm, j, rfl, hlk⟩ := (specRemovable_iff m s).mp hsr
    exact ⟨specs, rfl, _, hs, sid, nm, j, rfl, hlk⟩
  · intro d hd hall
    have hrem : shouldRemoveDecl m d = false := by
      by_contra h
      obtain ⟨specs, hdq, s, hs, hsr⟩ :=
        (shouldRemoveDecl_iff m d).mp (Bool.not_eq_false _ ▸ Bool.of_not_eq_false h)
      have : s ∈ d.specs := by rw [hdq]; exact hs
      rw [hall s this] at hsr
      exact Bool.false_ne_true hsr
    exact hout ▸ List.mem_filter.mpr ⟨hd, by simp [hrem]⟩
  · intro specs hmem hex hcontra
    have hrem : shouldRemoveDecl m (Decl.genDecl Tok.TYPE specs) = true :=
      (shouldRemoveDecl_iff m _).mpr ⟨specs, rfl, hex⟩
    have := (List.mem_filter.mp (hout ▸ hcontra)).2
    simp [hrem] at this

/-- Witness for the amended C1 at concrete inputs: the structured
declaration alone in its block is preserved verbatim. -/
theorem removeTypeDecl_name_shape_scoped_witness :
    Decl.genDecl Tok.TYPE [recordBoxSpec] ∈ (removeTypeDecl soloBoxFile itemMap).decls := by
  have h := (removeTypeDecl_name_shape_scoped soloBoxFile itemMap).2.1
  exact h (Decl.genDecl Tok.TYPE [recordBoxSpec]) (by decide) (by decide)

/-! ### Identifier substitution (`rewriteIdent`) -/

theorem fileIdents_addImport (f : File) (p : String) :
    fileIdents (addImport f p) = fileIdents f := by
  unfold addImport
  split <;> rfl

theorem fileIdents_foldl_addImport (l : List String) (f : File) :
    fileIdents (l.foldl addImport f) = fileIdents f := by
  induction l generalizing f with
  | nil => rfl
  | cons p l ih => rw [List.foldl_cons, ih, fileIdents_addImport]

/-- C4: the identifier-substitution pass acts pointwise on the file's
identifier occurrences (the output occurrences are exactly the input
occurrences transformed by the per-identifier rule), and the rule
renames an occurrence only when it carries a type-kind object and its
name is a key of the map — in which case the name becomes the target's
concrete name — and leaves every other identifier entirely untouched:
unmapped names, unresolved identifiers, and identifiers resolving to a
value, function, field, or package object all pass through verbatim. -/
theorem rewriteIdent_only_mapped_types (node : File) (m : TypeMap) :
    fileIdents (rewriteIdent node m) = (fileIdents node).map (rewriteIdent1 m) ∧
    (∀ i : Ident, lookupType m i.name = none → rewriteIdent1 m i = i) ∧
    (∀ i : Ident, i.obj = none → rewriteIdent1 m i = i) ∧
    (∀ (i : Ident) (o : Obj), i.obj = some o → o.kind ≠ ObjKind.typ →
       rewriteIdent1 m i = i) ∧
    (∀ (i : Ident) (o : Obj) (tgt : Target), i.obj = some o → o.kind = ObjKind.typ →
       lookupType m i.name = some tgt →
       rewriteIdent1 m i = { i with name := tgt.Ident }) := by
  refine ⟨?_, ?_, ?_, ?_, ?_⟩
  · show fileIdents ((usedImports m (fileIdents node)).foldl addImport
      (mapFileIdents (rewriteIdent1 m) node)) = _
    rw [fileIdents_foldl_addImport, fileIdents_mapFileIdents]
  · intro i h
    unfold rewriteIdent1
    cases hobj : i.obj with
    | none => rfl
    | some o => simp [h]
  · intro i h
    unfold rewriteIdent1
    rw [h]
  · intro i o h hk
    unfold rewriteIdent1
    rw [h]
    simp [hk]
  · intro i o tgt h hk hlk
    unfold rewriteIdent1
    rw [h]
    simp [hk, hlk]

/-- Witness for C4 at concrete inputs: an unmapped name, a mapped name
with a value-kind object, and a mapped type-kind occurrence. -/
theorem rewriteIdent_only_mapped_types_witness :
    rewriteIdent1 itemMap { name := "Other", obj := none } =
      { name := "Other", obj := none } ∧
    rewriteIdent1 itemMap
        { name := "Item", obj := some { kind := .var, name := "Item", decl := none } } =
      { name := "Item", obj := some { kind := .var, name := "Item", decl := none } } ∧
    rewriteIdent1 itemMap itemUseIdent = { itemUseIdent with name := "MyRecord" } := by
  obtain ⟨-, h1, h2, h3, h4⟩ := rewriteIdent_only_mapped_types groupedFile itemMap
  refine ⟨h2 _ rfl, h3 _ _ rfl (by decide), ?_⟩
  exact h4 itemUseIdent { kind := .typ, name := "Item", decl := some 0 }
    { Ident := "MyRecord", Import := "extpkg" } rfl rfl (by decide)

theorem mem_usedStep_mono (m : TypeMap) (acc : List String) (i : Ident) (p : String)
    (h : p ∈ acc) : p ∈ usedStep m acc i := by
  cases hI : identImport m i with
  | none => simpa [usedStep, hI] using h
  | some im =>
    simp only [usedStep, hI]
    split
    · exact h
    · exact List.mem_append_left _ h

theorem mem_foldl_usedStep_mono (m : TypeMap) (ids : List Ident) (acc : List String)
    (p : String) (h : p ∈ acc) : p ∈ ids.foldl (usedStep m) acc := by
  induction ids generalizing acc with
  | nil => exact h
  | cons i ids ih => exact ih _ (mem_usedStep_mono m acc i p h)

theorem mem_usedImports_of (m : TypeMap) (ids : List Ident) (p : String)
    (h : ∃ i ∈ ids, identImport m i = some p) : p ∈ usedImports m ids := by
  show p ∈ ids.foldl (usedStep m) []
  suffices hgen : ∀ acc : List String, p ∈ ids.foldl (usedStep m) acc by exact hgen []
  intro acc
  induction ids generalizing acc with
  | nil => simp at h
  | cons i ids ih =>
    rcases h with ⟨i0, hi0, him⟩
    rcases List.mem_cons.mp hi0 with rfl | htail
    · rw [List.foldl_cons]
      apply mem_foldl_usedStep_mono
      simp only [usedStep, him]
      split
      · assumption
      · exact List.mem_append_right _ (List.mem_singleton.mpr rfl)
    · rw [List.foldl_cons]
      exact ih ⟨i0, htail, him⟩ _

theorem addImport_of_mem (f : File) (p : String) (h : p ∈ f.imports) :
    addImport f p = f := by
  simp [addImport, h]

theorem addImport_of_not_mem (f : File) (p : String) (h : ¬ p ∈ f.imports) :
    addImport f p = { f with imports := f.imports ++ [p] } := by
  simp [addImport, h]

theorem count_foldl_addImport (l : List String) (f : File) (p : String) :
    (l.foldl addImport f).imports.count p =
      if p ∈ f.imports then f.imports.count p else if p ∈ l then 1 else 0 := by
  induction l generalizing f with
  | nil =>
    by_cases h : p ∈ f.imports
    · simp [h]
    · simp [h, List.count_eq_zero.mpr h]
  | cons q l ih =>
    rw [List.foldl_cons]
    by_cases hq : q ∈ f.imports
    · rw [addImport_of_mem f q hq, ih]
      by_cases hp : p ∈ f.imports
      · simp [hp]
      · have hpq : p ≠ q := fun h => hp (h ▸ hq)
        simp [hp, List.mem_cons, hpq]
    · rw [addImport_of_not_mem f q hq, ih]
      by_cases hpq : p = q
      · subst hpq
        simp [hq, List.count_eq_zero.mpr hq]
      · have hmem : (p ∈ f.imports ++ [q]) ↔ p ∈ f.imports := by
          simp [List.mem_append, hpq]
        have hcount : (f.imports ++ [q]).count p = f.imports.count p := by
          simp [List.count_append, List.count_singleton, hpq]
        by_cases hp : p ∈ f.imports
        · simp [hp, hmem.mpr hp, hcount]
        · have hnot : ¬ p ∈ f.imports ++ [q] := fun hc => hp (hmem.mp hc)
          simp [hp, hnot, hcount, List.mem_cons, hpq]

/-- C3: for a target with a non-empty import path that is demanded by
at least one substituted type-identifier occurrence of the file, the
rewritten file's import set lists that path exactly once, however many
occurrences demanded it (the template file itself importing the path at
most once, as any well-formed source does). -/
theorem rewriteIdent_import_once (node : File) (m : TypeMap) (tgt : Target)
    (himp : tgt.Import ≠ "")
    (hocc : ∃ i ∈ fileIdents node, ∃ o : Obj, i.obj = some o ∧ o.kind = ObjKind.typ ∧
        lookupType m i.name = some tgt)
    (hcnt : node.imports.count tgt.Import ≤ 1) :
    (rewriteIdent node m).imports.count tgt.Import = 1 := by
  obtain ⟨i, hi, o, ho, hk, hlk⟩ := hocc
  have hident : identImport m i = some tgt.Import := by
    unfold identImport
    rw [ho]
    simp [hk, hlk, himp]
  have hmem : tgt.Import ∈ usedImports m (fileIdents node) :=
    mem_usedImports_of m _ _ ⟨i, hi, hident⟩
  show ((usedImports m (fileIdents node)).foldl addImport
      (mapFileIdents (rewriteIdent1 m) node)).imports.count tgt.Import = 1
  rw [count_foldl_addImport, imports_mapFileIdents]
  by_cases hin : tgt.Import ∈ node.imports
  · have hne : node.imports.count tgt.Import ≠ 0 :=
      fun h => (List.count_eq_zero.mp h) hin
    have : node.imports.count tgt.Import = 1 := by omega
    simp [hin, this]
  · simp [hin, hmem]

/-- Witness for C3 at a concrete input: a file using `Item` twice ends
up importing `extpkg` exactly once. -/
theorem rewriteIdent_import_once_witness :
    (rewriteIdent twoItemFile itemMap).imports.count "extpkg" = 1 := by
  exact rewriteIdent_import_once twoItemFile itemMap
    { Ident := "MyRecord", Import := "extpkg" } (by decide)
    ⟨itemUseIdent, by decide,
      { kind := .typ, name := "Item", decl := some 0 }, rfl, rfl, by decide⟩
    (by decide)

/-! ### Top-level prefixing (`rewriteTopLevelIdent`): the declMap -/

theorem mapLookup_mapInsert_self (dm : List (Nat × String)) (k : Nat) (v : String) :
    mapLookup (mapInsert dm k v) k = some v := by
  induction dm with
  | nil => simp [mapInsert, mapLookup]
  | cons e rest ih =>
    by_cases h : e.1 = k
    · simp [mapInsert, mapLookup, h]
    · simpa [mapInsert, mapLookup, h] using ih

theorem mapLookup_foldl_insert_of_not_mem (es : List (Nat × String))
    (dm : List (Nat × String)) (k : Nat) (h : ∀ e ∈ es, e.1 ≠ k) :
    mapLookup (es.foldl (fun dm e => mapInsert dm e.1 e.2) dm) k = mapLookup dm k := by
  induction es generalizing dm with
  | nil => rfl
  | cons e rest ih =>
    rw [List.foldl_cons, ih _ (fun e' he' => h e' (List.mem_cons_of_mem _ he'))]
    have hek : e.1 ≠ k := h e (List.mem_cons_self _ _)
    clear ih h
    induction dm with
    | nil => simp [mapInsert, mapLookup, hek]
    | cons e' rest' ih' =>
      by_cases h' : e'.1 = e.1
      · simp [mapInsert, mapLookup, h', hek]
      · simp only [mapInsert, h', if_false]
        simp only [mapLookup]
        by_cases h'' : e'.1 = k
        · simp [h'']
        · simpa [h''] using ih'

theorem renameSpec_key (pfx : String) (m : TypeMap) (s : Spec) :
    ((renameSpec pfx m s).2).map Prod.fst = Spec.activeId m s := by
  cases s with
  | typeSpec i nm ty =>
    by_cases h : skipSpec m nm <;> simp [renameSpec, Spec.activeId, h]
  | valueSpec i nms ty vs =>
    cases hn : nms with
    | nil => simp [renameSpec, Spec.activeId]
    | cons a l =>
      obtain ⟨x, hx⟩ : ∃ x, (a :: l).getLast? = some x := by
        cases hq : (a :: l).getLast? with
        | none => exact absurd (List.getLast?_eq_none_iff.mp hq) (by simp)
        | some x => exact ⟨x, rfl⟩
      have hg2 : ((a :: l).map
          (fun n => ({ n with name := prefixIdent pfx n.name } : Ident))).getLast? =
          some { x with name := prefixIdent pfx x.name } := by
        rw [List.getLast?_map, hx]
        rfl
      simp only [renameSpec]
      rw [hg2]
      simp [Spec.activeId]

theorem renameDecl_keys (pfx : String) (m : TypeMap) (d : Decl) :
    ((renameDecl pfx m d).2).map Prod.fst = Decl.activeIds m d := by
  cases d with
  | funcDecl fd =>
    cases hr : fd.recv <;> simp [renameDecl, Decl.activeIds, hr]
  | genDecl tok specs =>
    simp only [renameDecl, Decl.activeIds]
    rw [List.map_filterMap]
    rw [List.filterMap_map]
    apply List.filterMap_congr
    intro s _
    exact renameSpec_key pfx m s

theorem activeId_eq_id (m : TypeMap) (s : Spec) (x : Nat)
    (h : Spec.activeId m s = some x) : x = s.id := by
  cases s with
  | typeSpec i nm ty =>
    by_cases hs : skipSpec m nm
    · simp [Spec.activeId, hs] at h
    · simp [Spec.activeId, hs] at h
      simp [Spec.id]
      omega
  | valueSpec i nms ty vs =>
    by_cases hn : nms = []
    · simp [Spec.activeId, hn] at h
    · simp [Spec.activeId, hn] at h
      simp [Spec.id]
      omega

theorem filterMap_sublist_map {α β : Type} (f : α → Option β) (g : α → β) (l : List α)
    (h : ∀ a b, f a = some b → b = g a) : (l.filterMap f).Sublist (l.map g) := by
  induction l with
  | nil => simp
  | cons a l ih =>
    rw [List.filterMap_cons, List.map_cons]
    cases hfa : f a with
    | none => exact ih.cons _
    | some b =>
      rw [h a b hfa]
      exact ih.cons₂ _

theorem activeIds_sublist_ids (m : TypeMap) (d : Decl) :
    (Decl.activeIds m d).Sublist d.ids := by
  cases d with
  | funcDecl fd =>
    cases hr : fd.recv <;> simp [Decl.activeIds, Decl.ids, hr]
  | genDecl tok specs =>
    exact filterMap_sublist_map _ _ _ (activeId_eq_id m)

theorem flatten_activeIds_sublist (m : TypeMap) (ds : List Decl) :
    ((ds.map (Decl.activeIds m)).flatten).Sublist ((ds.map Decl.ids).flatten) := by
  induction ds with
  | nil => simp
  | cons d ds ih =>
    simp only [List.map_cons, List.flatten_cons]
    exact List.Sublist.append (activeIds_sublist_ids m d) ih

theorem renameDecls_keys (pfx : String) (m : TypeMap) (ds : List Decl) :
    ((renameDecls pfx m ds).2).map Prod.fst = (ds.map (Decl.activeIds m)).flatten := by
  unfold renameDecls
  simp only [List.map_flatten, List.map_map]
  congr 1
  apply List.map_congr_left
  intro d _
  exact renameDecl_keys pfx m d

theorem renameDecls_keys_nodup (pfx : String) (m : TypeMap) (ds : List Decl)
    (hnd : ((ds.map Decl.ids).flatten).Nodup) :
    (((renameDecls pfx m ds).2).map Prod.fst).Nodup := by
  rw [renameDecls_keys]
  exact (flatten_activeIds_sublist m ds).nodup hnd

theorem mapLookup_declMapOf_of_mem (pfx : String) (m : TypeMap) (ds : List Decl)
    (key : Nat) (v : String)
    (hmem : (key, v) ∈ (renameDecls pfx m ds).2)
    (hnd : (((renameDecls pfx m ds).2).map Prod.fst).Nodup) :
    mapLookup (declMapOf pfx m ds) key = some v := by
  obtain ⟨es1, es2, hsplit⟩ := List.append_of_mem hmem
  unfold declMapOf
  rw [hsplit, List.foldl_append, List.foldl_cons]
  have h2 : ∀ e ∈ es2, e.1 ≠ key := by
    intro e he hk
    rw [hsplit, List.map_append, List.map_cons] at hnd
    have := (List.nodup_append.mp hnd).2.1
    have hkey : key ∉ es2.map Prod.fst := (List.nodup_cons.mp this).1
    exact hkey (hk ▸ List.mem_map_of_mem Prod.fst he)
  rw [mapLookup_foldl_insert_of_not_mem _ _ _ h2, mapLookup_mapInsert_self]

theorem mapLookup_declMapOf_of_not_key (pfx : String) (m : TypeMap) (ds : List Decl)
    (key : Nat) (h : ∀ e ∈ (renameDecls pfx m ds).2, e.1 ≠ key) :
    mapLookup (declMapOf pfx m ds) key = none := by
  unfold declMapOf
  rw [mapLookup_foldl_insert_of_not_mem _ _ _ h]
  rfl

theorem funcDecl_entry_mem (pfx : String) (m : TypeMap) (ds : List Decl) (fd : FuncDecl)
    (hmem : Decl.funcDecl fd ∈ ds) (hr : fd.recv = none) :
    (fd.id, prefixIdent pfx fd.name.name) ∈ (renameDecls pfx m ds).2 := by
  unfold renameDecls
  refine List.mem_flatten.mpr ⟨(renameDecl pfx m (.funcDecl fd)).2, ?_, ?_⟩
  · exact List.mem_map_of_mem Prod.snd (List.mem_map_of_mem _ hmem)
  · simp [renameDecl, hr]

theorem valueSpec_entry_mem (pfx : String) (m : TypeMap) (ds : List Decl)
    (tok : Tok) (specs : List Spec) (vid : Nat) (nms : List Ident)
    (vty : Option Expr) (vvals : List Expr) (lastN : Ident)
    (hdm : Decl.genDecl tok specs ∈ ds)
    (hsm : Spec.valueSpec vid nms vty vvals ∈ specs)
    (hl : nms.getLast? = some lastN) :
    (vid, prefixIdent pfx lastN.name) ∈ (renameDecls pfx m ds).2 := by
  unfold renameDecls
  refine List.mem_flatten.mpr ⟨(renameDecl pfx m (.genDecl tok specs)).2, ?_, ?_⟩
  · exact List.mem_map_of_mem Prod.snd (List.mem_map_of_mem _ hdm)
  · simp only [renameDecl]
    refine List.mem_filterMap.mpr
      ⟨renameSpec pfx m (.valueSpec vid nms vty vvals), List.mem_map_of_mem _ hsm, ?_⟩
    have hg : (nms.map (fun n => { n with name := prefixIdent pfx n.name } : Ident → Ident)).getLast? =
        some { lastN with name := prefixIdent pfx lastN.name } := by
      rw [List.getLast?_map, hl]
      rfl
    simp [renameSpec, hg]

/-! ### Top-level prefixing: phase two (use rewriting) -/

theorem rewriteUseIdent_obj (dm : List (Nat × String)) (j : Ident) :
    (rewriteUseIdent dm j).obj = j.obj := by
  obtain ⟨nm0, obj0⟩ := j
  cases obj0 with
  | none => simp [rewriteUseIdent]
  | some o =>
    obtain ⟨k0, on0, od0⟩ := o
    cases od0 with
    | none => simp [rewriteUseIdent]
    | some d => cases hL : mapLookup dm d <;> simp [rewriteUseIdent, hL]

theorem rewriteUseIdent_declRef (dm : List (Nat × String)) (j : Ident) :
    (rewriteUseIdent dm j).declRef = j.declRef := by
  unfold Ident.declRef
  rw [rewriteUseIdent_obj]

theorem rewriteUseIdent_name_of_ref (dm : List (Nat × String)) (j : Ident) (d : Nat)
    (nm : String) (h1 : j.declRef = some d) (h2 : mapLookup dm d = some nm) :
    (rewriteUseIdent dm j).name = nm := by
  obtain ⟨nm0, obj0⟩ := j
  cases obj0 with
  | none => simp [Ident.declRef] at h1
  | some o =>
    obtain ⟨k0, on0, od0⟩ := o
    simp only [Ident.declRef] at h1
    subst h1
    simp [rewriteUseIdent, h2]

theorem rewriteUseIdent_name_of_no_ref (dm : List (Nat × String)) (j : Ident)
    (h : j.declRef = none) : (rewriteUseIdent dm j).name = j.name := by
  obtain ⟨nm0, obj0⟩ := j
  cases obj0 with
  | none => simp [rewriteUseIdent]
  | some o =>
    obtain ⟨k0, on0, od0⟩ := o
    simp only [Ident.declRef] at h
    subst h
    simp [rewriteUseIdent]

theorem rewriteUseIdent_name_of_dead_ref (dm : List (Nat × String)) (j : Ident) (d : Nat)
    (h1 : j.declRef = some d) (h2 : mapLookup dm d = none) :
    (rewriteUseIdent dm j).name = j.name := by
  obtain ⟨nm0, obj0⟩ := j
  cases obj0 with
  | none => simp [Ident.declRef] at h1
  | some o =>
    obtain ⟨k0, on0, od0⟩ := o
    simp only [Ident.declRef] at h1
    subst h1
    simp [rewriteUseIdent, h2]

theorem rewriteTopLevelIdent_eq (node : File) (pfx : String) (m : TypeMap) :
    rewriteTopLevelIdent node pfx m =
      mapFileIdents (rewriteUseIdent (declMapOf pfx m node.decls))
        { node with decls := (renameDecls pfx m node.decls).1 } := rfl

theorem renameDecls_fst_getElem (pfx : String) (m : TypeMap) (ds : List Decl) (k : Nat) :
    ((renameDecls pfx m ds).1)[k]? = (ds[k]?).map (fun d => (renameDecl pfx m d).1) := by
  unfold renameDecls
  simp [List.getElem?_map, Function.comp_def]

/-- The id appearing once in the flattened id lists: an id carried by a
declaration of the list and by a skipped type spec is never a key of
the declaration map. -/
theorem skipped_id_not_key (pfx : String) (m : TypeMap) (ds : List Decl)
    (tok : Tok) (specs : List Spec) (j : Nat) (sid : Nat) (nm : Ident) (ty : Expr)
    (hdm : Decl.genDecl tok specs ∈ ds)
    (hj : specs[j]? = some (Spec.typeSpec sid nm ty))
    (hskip : skipSpec m nm = true)
    (hnd : ((ds.map Decl.ids).flatten).Nodup) :
    mapLookup (declMapOf pfx m ds) sid = none := by
  apply mapLookup_declMapOf_of_not_key
  intro e he hk
  -- the entry lives in some declaration of the list
  have hkeymem : sid ∈ ((renameDecls pfx m ds).2).map Prod.fst :=
    hk ▸ List.mem_map_of_mem Prod.fst he
  rw [renameDecls_keys] at hkeymem
  obtain ⟨al, hal, hsl⟩ := List.mem_flatten.mp hkeymem
  obtain ⟨d', hd'mem, rfl⟩ := List.mem_map.mp hal
  have hsj : Spec.typeSpec sid nm ty ∈ specs := List.getElem?_mem hj
  have hsid_our : sid ∈ (Decl.genDecl tok specs).ids := by
    show sid ∈ specs.map Spec.id
    exact List.mem_map.mpr ⟨_, hsj, rfl⟩
  by_cases hde : d' = Decl.genDecl tok specs
  · subst hde
    obtain ⟨s, hs, hact⟩ := List.mem_filterMap.mp hsl
    have hid : sid = s.id := activeId_eq_id m s sid hact
    have hnodup_specs : (specs.map Spec.id).Nodup := by
      have := (List.nodup_flatten.mp hnd).1
      exact this _ (List.mem_map_of_mem Decl.ids hdm)
    have hseq : s = Spec.typeSpec sid nm ty := by
      apply List.inj_on_of_nodup_map hnodup_specs hs hsj
      exact hid.symm
    rw [hseq] at hact
    simp [Spec.activeId, hskip] at hact
  · -- two distinct declarations would both carry `sid`
    have hsid_d' : sid ∈ d'.ids := (activeIds_sublist_ids m d').subset hsl
    obtain ⟨a, b, hds⟩ := List.append_of_mem hdm
    have hd'ab : d' ∈ a ∨ d' ∈ b := by
      rw [hds] at hd'mem
      rcases List.mem_append.mp hd'mem with h | h
      · exact Or.inl h
      · rcases List.mem_cons.mp h with h | h
        · exact absurd h hde
        · exact Or.inr h
    have hcnt : List.count sid ((ds.map Decl.ids).flatten) ≤ 1 :=
      List.nodup_iff_count_le_one.mp hnd sid
    rw [hds] at hcnt
    simp only [List.map_append, List.map_cons, List.flatten_append, List.flatten_cons,
      List.count_append] at hcnt
    have hour : 1 ≤ List.count sid (Decl.genDecl tok specs).ids :=
      List.one_le_count_iff.mpr hsid_our
    rcases hd'ab with h | h
    · have : sid ∈ (a.map Decl.ids).flatten :=
        List.mem_flatten.mpr ⟨d'.ids, List.mem_map_of_mem _ h, hsid_d'⟩
      have h1 : 1 ≤ List.count sid (a.map Decl.ids).flatten :=
        List.one_le_count_iff.mpr this
      omega
    · have : sid ∈ (b.map Decl.ids).flatten :=
        List.mem_flatten.mpr ⟨d'.ids, List.mem_map_of_mem _ h, hsid_d'⟩
      have h1 : 1 ≤ List.count sid (b.map Decl.ids).flatten :=
        List.one_le_count_iff.mpr this
      omega

theorem renameSpec_typeSpec_no_skip (pfx : String) (m : TypeMap) (sid : Nat)
    (nm : Ident) (ty : Expr) (h : skipSpec m nm = false) :
    renameSpec pfx m (Spec.typeSpec sid nm ty) =
      (Spec.typeSpec sid { nm with name := prefixIdent pfx nm.name } ty,
        some (sid, prefixIdent pfx nm.name)) := by
  simp [renameSpec, h]

theorem typeSpec_entry_mem (pfx : String) (m : TypeMap) (ds : List Decl)
    (tok : Tok) (specs : List Spec) (sid : Nat) (nm : Ident) (ty : Expr)
    (hdm : Decl.genDecl tok specs ∈ ds)
    (hsm : Spec.typeSpec sid nm ty ∈ specs)
    (hskip : skipSpec m nm = false) :
    (sid, prefixIdent pfx nm.name) ∈ (renameDecls pfx m ds).2 := by
  unfold renameDecls
  refine List.mem_flatten.mpr ⟨(renameDecl pfx m (.genDecl tok specs)).2,
    List.mem_map_of_mem Prod.snd (List.mem_map_of_mem _ hdm), ?_⟩
  simp only [renameDecl]
  refine List.mem_filterMap.mpr ⟨renameSpec pfx m (.typeSpec sid nm ty),
    List.mem_map_of_mem _ hsm, ?_⟩
  rw [renameSpec_typeSpec_no_skip pfx m sid nm ty hskip]

theorem renameSpec_valueSpec_fst (pfx : String) (m : TypeMap) (vid : Nat)
    (nms : List Ident) (vty : Option Expr) (vvals : List Expr) :
    (renameSpec pfx m (Spec.valueSpec vid nms vty vvals)).1 =
      Spec.valueSpec vid (nms.map fun n => { n with name := prefixIdent pfx n.name })
        vty vvals := by
  cases h : ((nms.map fun n => ({ n with name := prefixIdent pfx n.name } : Ident))).getLast? <;>
    simp [renameSpec, h]

/-- C2: in same-directory mode (for distinct declaration node ids, as
pointer identity guarantees), (a) every identifier occurrence of the
output that is bound to a declaration registered in the
declaration-to-new-name map carries that declaration's new name — in
particular every call site of a renamed declaration; (b) every
top-level receiverless function declaration is renamed by prepending
the prefix (its new name is registered in the map, and the output
declaration at the same position carries the prefixed name whenever its
declaring identifier resolves to itself or to nothing, as parsing
guarantees); (c) a type spec whose current name already equals the
concrete name its mapped object was assigned during identifier
substitution is not prefixed: its name survives verbatim at the same
position; (d) every other (non-skipped) type spec is renamed by
prepending the prefix, with its prefixed name registered in the map and
carried by the output declaration at the same position; (e) every
value/variable spec has all of its declared names renamed by prepending
the prefix in the declaration-renaming phase, and the new name it
registers in the map — to which conjunct (a) then updates every bound
reference — is the prefixed form of its last declared name. -/
theorem rewriteTopLevelIdent_prefixing (node : File) (pfx : String) (m : TypeMap)
    (hnd : (declIds node).Nodup) :
    (∀ i ∈ fileIdents (rewriteTopLevelIdent node pfx m), ∀ d nm,
        i.declRef = some d → mapLookup (declMapOf pfx m node.decls) d = some nm →
        i.name = nm) ∧
    (∀ (k : Nat) (fd : FuncDecl), node.decls[k]? = some (Decl.funcDecl fd) →
        fd.recv = none →
        mapLookup (declMapOf pfx m node.decls) fd.id =
          some (prefixIdent pfx fd.name.name) ∧
        ∃ fd', (rewriteTopLevelIdent node pfx m).decls[k]? = some (Decl.funcDecl fd') ∧
          fd'.id = fd.id ∧
          ((fd.name.declRef = none ∨ fd.name.declRef = some fd.id) →
            fd'.name.name = prefixIdent pfx fd.name.name)) ∧
    (∀ (k : Nat) (tok : Tok) (specs : List Spec) (j sid : Nat) (nm : Ident) (ty : Expr),
        node.decls[k]? = some (Decl.genDecl tok specs) →
        specs[j]? = some (Spec.typeSpec sid nm ty) →
        skipSpec m nm = true →
        (nm.declRef = none ∨ nm.declRef = some sid) →
        ∃ specs' nm' ty',
          (rewriteTopLevelIdent node pfx m).decls[k]? = some (Decl.genDecl tok specs') ∧
          specs'[j]? = some (Spec.typeSpec sid nm' ty') ∧ nm'.name = nm.name) ∧
    (∀ (k : Nat) (tok : Tok) (specs : List Spec) (j sid : Nat) (nm : Ident) (ty : Expr),
        node.decls[k]? = some (Decl.genDecl tok specs) →
        specs[j]? = some (Spec.typeSpec sid nm ty) →
        skipSpec m nm = false →
        mapLookup (declMapOf pfx m node.decls) sid =
          some (prefixIdent pfx nm.name) ∧
        ∃ specs' nm' ty',
          (rewriteTopLevelIdent node pfx m).decls[k]? = some (Decl.genDecl tok specs') ∧
          specs'[j]? = some (Spec.typeSpec sid nm' ty') ∧
          ((nm.declRef = none ∨ nm.declRef = some sid) →
            nm'.name = prefixIdent pfx nm.name)) ∧
    (∀ (k : Nat) (tok : Tok) (specs : List Spec) (j vid : Nat) (nms : List Ident)
        (vty : Option Expr) (vvals : List Expr),
        node.decls[k]? = some (Decl.genDecl tok specs) →
        specs[j]? = some (Spec.valueSpec vid nms vty vvals) →
        (∃ specs1, ((renameDecls pfx m node.decls).1)[k]? =
            some (Decl.genDecl tok specs1) ∧
          specs1[j]? = some (Spec.valueSpec vid
            (nms.map fun n => { n with name := prefixIdent pfx n.name }) vty vvals)) ∧
        (∀ lastN, nms.getLast? = some lastN →
          mapLookup (declMapOf pfx m node.decls) vid =
            some (prefixIdent pfx lastN.name))) := by
  refine ⟨?_, ?_, ?_, ?_, ?_⟩
  · intro i hi d nm href hlk
    rw [rewriteTopLevelIdent_eq, fileIdents_mapFileIdents] at hi
    obtain ⟨j, hj, rfl⟩ := List.mem_map.mp hi
    rw [rewriteUseIdent_declRef] at href
    exact rewriteUseIdent_name_of_ref _ _ _ _ href hlk
  · intro k fd hk hrecv
    have hmemd : Decl.funcDecl fd ∈ node.decls := List.getElem?_mem hk
    have hentry := funcDecl_entry_mem pfx m node.decls fd hmemd hrecv
    have hlk := mapLookup_declMapOf_of_mem pfx m node.decls fd.id _ hentry
      (renameDecls_keys_nodup pfx m node.decls hnd)
    refine ⟨hlk, ?_⟩
    have hpos1 : ((renameDecls pfx m node.decls).1)[k]? =
        some ((renameDecl pfx m (.funcDecl fd)).1) := by
      rw [renameDecls_fst_getElem, hk]
      rfl
    have hrd : (renameDecl pfx m (.funcDecl fd)).1 =
        Decl.funcDecl
          { fd with name := { fd.name with name := prefixIdent pfx fd.name.name } } := by
      simp [renameDecl, hrecv]
    refine ⟨FuncDecl.mapIdents (rewriteUseIdent (declMapOf pfx m node.decls))
      { fd with name := { fd.name with name := prefixIdent pfx fd.name.name } }, ?_, rfl, ?_⟩
    · rw [rewriteTopLevelIdent_eq]
      show (((renameDecls pfx m node.decls).1).map
        (Decl.mapIdents (rewriteUseIdent (declMapOf pfx m node.decls))))[k]? = _
      rw [List.getElem?_map, hpos1, hrd]
      rfl
    · intro hcase
      show (rewriteUseIdent (declMapOf pfx m node.decls)
        { fd.name with name := prefixIdent pfx fd.name.name }).name = _
      rcases hcase with hnone | hself
      · have hnone2 : ({ fd.name with name := prefixIdent pfx fd.name.name } : Ident).declRef
            = none := hnone
        exact rewriteUseIdent_name_of_no_ref _ _ hnone2
      · have hself2 : ({ fd.name with name := prefixIdent pfx fd.name.name } : Ident).declRef
            = some fd.id := hself
        exact rewriteUseIdent_name_of_ref _ _ _ _ hself2 hlk
  · intro k tok specs j sid nm ty hk hj hskip href
    have hmemd : Decl.genDecl tok specs ∈ node.decls := List.getElem?_mem hk
    have hnone : mapLookup (declMapOf pfx m node.decls) sid = none :=
      skipped_id_not_key pfx m node.decls tok specs j sid nm ty hmemd hj hskip hnd
    have hpos1 : ((renameDecls pfx m node.decls).1)[k]? =
        some ((renameDecl pfx m (.genDecl tok specs)).1) := by
      rw [renameDecls_fst_getElem, hk]
      rfl
    have hrd : (renameDecl pfx m (.genDecl tok specs)).1 =
        Decl.genDecl tok ((specs.map (renameSpec pfx m)).map Prod.fst) := by
      simp [renameDecl]
    have hskipspec : (renameSpec pfx m (Spec.typeSpec sid nm ty)).1 =
        Spec.typeSpec sid nm ty := by
      simp [renameSpec, hskip]
    refine ⟨((specs.map (renameSpec pfx m)).map Prod.fst).map
        (Spec.mapIdents (rewriteUseIdent (declMapOf pfx m node.decls))),
      rewriteUseIdent (declMapOf pfx m node.decls) nm,
      ty.mapIdents (rewriteUseIdent (declMapOf pfx m node.decls)), ?_, ?_, ?_⟩
    · rw [rewriteTopLevelIdent_eq]
      show (((renameDecls pfx m node.decls).1).map
        (Decl.mapIdents (rewriteUseIdent (declMapOf pfx m node.decls))))[k]? = _
      rw [List.getElem?_map, hpos1, hrd]
      rfl
    · rw [List.getElem?_map, List.getElem?_map, List.getElem?_map, hj]
      simp [hskipspec, Spec.mapIdents]
    · rcases href with hnone' | hself
      · rw [rewriteUseIdent_name_of_no_ref _ _ hnone']
      · rw [rewriteUseIdent_name_of_dead_ref _ _ _ hself hnone]
  · intro k tok specs j sid nm ty hk hj hskip
    have hmemd : Decl.genDecl tok specs ∈ node.decls := List.getElem?_mem hk
    have hsm : Spec.typeSpec sid nm ty ∈ specs := List.getElem?_mem hj
    have hentry := typeSpec_entry_mem pfx m node.decls tok specs sid nm ty hmemd hsm hskip
    have hlk := mapLookup_declMapOf_of_mem pfx m node.decls sid _ hentry
      (renameDecls_keys_nodup pfx m node.decls hnd)
    refine ⟨hlk, ?_⟩
    have hpos1 : ((renameDecls pfx m node.decls).1)[k]? =
        some ((renameDecl pfx m (.genDecl tok specs)).1) := by
      rw [renameDecls_fst_getElem, hk]
      rfl
    have hrd : (renameDecl pfx m (.genDecl tok specs)).1 =
        Decl.genDecl tok ((specs.map (renameSpec pfx m)).map Prod.fst) := by
      simp [renameDecl]
    refine ⟨((specs.map (renameSpec pfx m)).map Prod.fst).map
        (Spec.mapIdents (rewriteUseIdent (declMapOf pfx m node.decls))),
      rewriteUseIdent (declMapOf pfx m node.decls)
        { nm with name := prefixIdent pfx nm.name },
      ty.mapIdents (rewriteUseIdent (declMapOf pfx m node.decls)), ?_, ?_, ?_⟩
    · rw [rewriteTopLevelIdent_eq]
      show (((renameDecls pfx m node.decls).1).map
        (Decl.mapIdents (rewriteUseIdent (declMapOf pfx m node.decls))))[k]? = _
      rw [List.getElem?_map, hpos1, hrd]
      rfl
    · rw [List.getElem?_map, List.getElem?_map, List.getElem?_map, hj]
      simp [renameSpec_typeSpec_no_skip pfx m sid nm ty hskip, Spec.mapIdents]
    · intro hcase
      rcases hcase with hnone' | hself
      · have h2 : ({ nm with name := prefixIdent pfx nm.name } : Ident).declRef
            = none := hnone'
        rw [rewriteUseIdent_name_of_no_ref _ _ h2]
      · have h2 : ({ nm with name := prefixIdent pfx nm.name } : Ident).declRef
            = some sid := hself
        rw [rewriteUseIdent_name_of_ref _ _ _ _ h2 hlk]
  · intro k tok specs j vid nms vty vvals hk hj
    constructor
    · have hpos1 : ((renameDecls pfx m node.decls).1)[k]? =
          some ((renameDecl pfx m (.genDecl tok specs)).1) := by
        rw [renameDecls_fst_getElem, hk]
        rfl
      refine ⟨(specs.map (renameSpec pfx m)).map Prod.fst, ?_, ?_⟩
      · rw [hpos1]
        simp [renameDecl]
      · rw [List.getElem?_map, List.getElem?_map, hj]
        simp [renameSpec_valueSpec_fst]
    · intro lastN hl
      have hmemd : Decl.genDecl tok specs ∈ node.decls := List.getElem?_mem hk
      have hsm : Spec.valueSpec vid nms vty vvals ∈ specs := List.getElem?_mem hj
      exact mapLookup_declMapOf_of_mem pfx m node.decls vid _
        (valueSpec_entry_mem pfx m node.decls tok specs vid nms vty vvals lastN
          hmemd hsm hl)
        (renameDecls_keys_nodup pfx m node.decls hnd)

/-- Witness for C2 at concrete inputs: prefix "gen" on a file with
`func Process()` gives a declaration map entry `gen_Process`, a renamed
declaration `gen_Process`, and every bound reference renamed; and on a
file with `type Box struct` and `var a, b int`, the type declaration
comes out named `gen_Box` and the value spec's declared names are
renamed to `gen_a`, `gen_b`. -/
theorem rewriteTopLevelIdent_prefixing_witness :
    mapLookup (declMapOf "gen" itemMap processFile.decls) 0 = some "gen_Process" ∧
    (∃ fd', (rewriteTopLevelIdent processFile "gen" itemMap).decls[0]? =
        some (Decl.funcDecl fd') ∧ fd'.name.name = "gen_Process") ∧
    (∀ i ∈ fileIdents (rewriteTopLevelIdent processFile "gen" itemMap),
        i.declRef = some 0 → i.name = "gen_Process") ∧
    mapLookup (declMapOf "gen" itemMap mixedFile.decls) 1 = some "gen_Box" ∧
    (∃ specs' nm' ty', (rewriteTopLevelIdent mixedFile "gen" itemMap).decls[0]? =
        some (Decl.genDecl Tok.TYPE specs') ∧
      specs'[0]? = some (Spec.typeSpec 1 nm' ty') ∧ nm'.name = "gen_Box") ∧
    (∃ specs1 nms1 t1 v1, ((renameDecls "gen" itemMap mixedFile.decls).1)[1]? =
        some (Decl.genDecl Tok.VAR specs1) ∧
      specs1[0]? = some (Spec.valueSpec 3 nms1 t1 v1) ∧
      nms1.map Ident.name = ["gen_a", "gen_b"]) := by
  obtain ⟨ha, hb, -, -, -⟩ :=
    rewriteTopLevelIdent_prefixing processFile "gen" itemMap (by decide)
  obtain ⟨hlk, fd', hpos, hid, hname⟩ := hb 0 processFunc rfl rfl
  have hpfx : prefixIdent "gen" processFunc.name.name = "gen_Process" := by decide
  have hlk' : mapLookup (declMapOf "gen" itemMap processFile.decls) 0 =
      some "gen_Process" := by
    rw [← hpfx]
    exact hlk
  obtain ⟨-, -, -, hd, he⟩ :=
    rewriteTopLevelIdent_prefixing mixedFile "gen" itemMap (by decide)
  obtain ⟨hlk2, specs', nm', ty', hq1, hq2, hq3⟩ := hd 0 Tok.TYPE [recordBoxSpec] 0 1
    { name := "Box", obj := some { kind := .typ, name := "Box", decl := some 1 } }
    (.structT (.fieldCons { name := "n", obj := none }
      (.ident { name := "int", obj := none }) .nilE))
    rfl rfl (by decide)
  have hbox : prefixIdent "gen"
      ({ name := "Box", obj := some { kind := ObjKind.typ, name := "Box", decl := some 1 } }
        : Ident).name = "gen_Box" := by decide
  obtain ⟨⟨specs1, hv1, hv2⟩, -⟩ := he 1 Tok.VAR [abValueSpec] 0 3 [aIdent, bIdent]
    (some (.ident { name := "int", obj := none })) [] rfl rfl
  refine ⟨hlk', ⟨fd', hpos, ?_⟩, ?_, ?_, ⟨specs', nm', ty', hq1, hq2, ?_⟩,
    ⟨specs1, _, _, _, hv1, hv2, by decide⟩⟩
  · rw [hname (Or.inr rfl), hpfx]
  · intro i hi href
    exact ha i hi 0 "gen_Process" href hlk'
  · rw [← hbox]
    exact hlk2
  · rw [hq3 (Or.inr rfl), hbox]

/-- C9: a top-level value specification declaring several names maps,
in the declaration-to-new-name map, to the prefixed form of its
last-listed name, and every identifier occurrence of the output bound
to that specification — whichever of the declared names it originally
used — carries that prefixed last name. -/
theorem rewriteTopLevelIdent_value_spec_last_name (node : File) (pfx : String)
    (m : TypeMap) (hnd : (declIds node).Nodup)
    (tok : Tok) (specs : List Spec) (vid : Nat) (nms : List Ident)
    (vty : Option Expr) (vvals : List Expr)
    (hdm : Decl.genDecl tok specs ∈ node.decls)
    (hsm : Spec.valueSpec vid nms vty vvals ∈ specs)
    (hlen : 1 < nms.length) :
    ∃ lastN, nms.getLast? = some lastN ∧
      mapLookup (declMapOf pfx m node.decls) vid = some (prefixIdent pfx lastN.name) ∧
      ∀ i ∈ fileIdents (rewriteTopLevelIdent node pfx m),
        i.declRef = some vid → i.name = prefixIdent pfx lastN.name := by
  have hne : nms ≠ [] := by
    intro h
    rw [h] at hlen
    simp at hlen
  obtain ⟨lastN, hl⟩ : ∃ lastN, nms.getLast? = some lastN := by
    cases hg : nms.getLast? with
    | none => exact absurd (List.getLast?_eq_none_iff.mp hg) hne
    | some x => exact ⟨x, rfl⟩
  have hentry := valueSpec_entry_mem pfx m node.decls tok specs vid nms vty vvals lastN
    hdm hsm hl
  have hlk := mapLookup_declMapOf_of_mem pfx m node.decls vid _ hentry
    (renameDecls_keys_nodup pfx m node.decls hnd)
  refine ⟨lastN, hl, hlk, ?_⟩
  intro i hi href
  rw [rewriteTopLevelIdent_eq, fileIdents_mapFileIdents] at hi
  obtain ⟨jI, hj, rfl⟩ := List.mem_map.mp hi
  rw [rewriteUseIdent_declRef] at href
  exact rewriteUseIdent_name_of_ref _ _ _ _ href hlk

/-- Witness for C9 at a concrete input: `var a, b int` under prefix "p"
registers `p_b` for the spec node, and the reference originally reading
`a` comes out renamed to `p_b`. -/
theorem rewriteTopLevelIdent_value_spec_last_name_witness :
    mapLookup (declMapOf "p" itemMap abFile.decls) 3 = some "p_b" ∧
    (∀ i ∈ fileIdents (rewriteTopLevelIdent abFile "p" itemMap),
        i.declRef = some 3 → i.name = "p_b") := by
  obtain ⟨lastN, hl, hlk, hall⟩ := rewriteTopLevelIdent_value_spec_last_name abFile "p"
    itemMap (by decide) Tok.VAR [abValueSpec] 3 [aIdent, bIdent]
    (some (.ident { name := "int", obj := none })) [] (by decide) (by decide) (by decide)
  have hlast : lastN = bIdent := by
    have h0 : ([aIdent, bIdent].getLast? : Option Ident) = some bIdent := rfl
    rw [h0] at hl
    exact (Option.some.inj hl).symm
  have hpb : prefixIdent "p" bIdent.name = "p_b" := by decide
  rw [hlast, hpb] at hlk hall
  exact ⟨hlk, hall⟩

/-! ### The pipeline: emission lemmas -/

theorem emitFilesSame_ok (env : FsEnv) (pfx : String) (l : List (String × File))
    (h : ∀ p ∈ l, env.createOk (pfx ++ "_" ++ baseName p.1) = true ∧
      env.writeOk (pfx ++ "_" ++ baseName p.1) = true) :
    emitFilesSame env pfx l =
      ((l.map fun p => [FsOp.createFile (pfx ++ "_" ++ baseName p.1),
        FsOp.writeTree (pfx ++ "_" ++ baseName p.1) p.2]).flatten, none) := by
  induction l with
  | nil => rfl
  | cons q rest ih =>
    obtain ⟨src, t⟩ := q
    have hq := h (src, t) (List.mem_cons_self _ _)
    have hrest := ih fun p hp => h p (List.mem_cons_of_mem _ hp)
    simp [emitFilesSame, hq.1, hq.2, hrest]

theorem emitFilesSame_fail (env : FsEnv) (pfx : String) (l : List (String × File))
    (h : ∃ p ∈ l, ¬ (env.createOk (pfx ++ "_" ++ baseName p.1) = true ∧
      env.writeOk (pfx ++ "_" ++ baseName p.1) = true)) :
    (emitFilesSame env pfx l).2.isSome := by
  induction l with
  | nil => simp at h
  | cons q rest ih =>
    obtain ⟨src, t⟩ := q
    by_cases hc : env.createOk (pfx ++ "_" ++ baseName src) = true
    · by_cases hw : env.writeOk (pfx ++ "_" ++ baseName src) = true
      · have htail : ∃ p ∈ rest, ¬ (env.createOk (pfx ++ "_" ++ baseName p.1) = true ∧
            env.writeOk (pfx ++ "_" ++ baseName p.1) = true) := by
          obtain ⟨p, hp, hnp⟩ := h
          rcases List.mem_cons.mp hp with rfl | hp'
          · exact absurd ⟨hc, hw⟩ hnp
          · exact ⟨p, hp', hnp⟩
        simpa [emitFilesSame, hc, hw] using ih htail
      · simp [emitFilesSame, hc, hw]
    · simp [emitFilesSame, hc]

theorem emitFilesNew_ok (env : FsEnv) (dest : String) (l : List (String × File))
    (h : ∀ p ∈ l, env.createOk (dest ++ "/" ++ baseName p.1) = true ∧
      env.writeOk (dest ++ "/" ++ baseName p.1) = true) :
    emitFilesNew env dest l =
      ((l.map fun p => [FsOp.createFile (dest ++ "/" ++ baseName p.1),
        FsOp.writeTree (dest ++ "/" ++ baseName p.1) p.2]).flatten, none) := by
  induction l with
  | nil => rfl
  | cons q rest ih =>
    obtain ⟨src, t⟩ := q
    have hq := h (src, t) (List.mem_cons_self _ _)
    have hrest := ih fun p hp => h p (List.mem_cons_of_mem _ hp)
    simp [emitFilesNew, hq.1, hq.2, hrest]

theorem emitFilesNew_fail (env : FsEnv) (dest : String) (l : List (String × File))
    (h : ∃ p ∈ l, ¬ (env.createOk (dest ++ "/" ++ baseName p.1) = true ∧
      env.writeOk (dest ++ "/" ++ baseName p.1) = true)) :
    (emitFilesNew env dest l).2.isSome := by
  induction l with
  | nil => simp at h
  | cons q rest ih =>
    obtain ⟨src, t⟩ := q
    by_cases hc : env.createOk (dest ++ "/" ++ baseName src) = true
    · by_cases hw : env.writeOk (dest ++ "/" ++ baseName src) = true
      · have htail : ∃ p ∈ rest, ¬ (env.createOk (dest ++ "/" ++ baseName p.1) = true ∧
            env.writeOk (dest ++ "/" ++ baseName p.1) = true) := by
          obtain ⟨p, hp, hnp⟩ := h
          rcases List.mem_cons.mp hp with rfl | hp'
          · exact absurd ⟨hc, hw⟩ hnp
          · exact ⟨p, hp', hnp⟩
        simpa [emitFilesNew, hc, hw] using ih htail
      · simp [emitFilesNew, hc, hw]
    · simp [emitFilesNew, hc]

theorem writeTree_mem_emitFilesSame (env : FsEnv) (pfx : String)
    (l : List (String × File)) (p : String) (t : File)
    (h : FsOp.writeTree p t ∈ (emitFilesSame env pfx l).1) : ∃ src, (src, t) ∈ l := by
  induction l with
  | nil => simp [emitFilesSame] at h
  | cons q rest ih =>
    obtain ⟨src, tr⟩ := q
    by_cases hc : env.createOk (pfx ++ "_" ++ baseName src) = true
    · by_cases hw : env.writeOk (pfx ++ "_" ++ baseName src) = true
      · simp only [emitFilesSame, hc, hw, not_true, if_false, ite_false, ite_true] at h
        have h' : (p = pfx ++ "_" ++ baseName src ∧ t = tr) ∨
            FsOp.writeTree p t ∈ (emitFilesSame env pfx rest).1 := by simpa using h
        rcases h' with ⟨h1, h2⟩ | h''
        · refine ⟨src, ?_⟩
          rw [h2]
          exact List.mem_cons_self _ _
        · obtain ⟨s, hs⟩ := ih h''
          exact ⟨s, List.mem_cons_of_mem _ hs⟩
      · simp [emitFilesSame, hc, hw] at h
    · simp [emitFilesSame, hc] at h

theorem writeTree_mem_emitFilesNew (env : FsEnv) (dest : String)
    (l : List (String × File)) (p : String) (t : File)
    (h : FsOp.writeTree p t ∈ (emitFilesNew env dest l).1) : ∃ src, (src, t) ∈ l := by
  induction l with
  | nil => simp [emitFilesNew] at h
  | cons q rest ih =>
    obtain ⟨src, tr⟩ := q
    by_cases hc : env.createOk (dest ++ "/" ++ baseName src) = true
    · by_cases hw : env.writeOk (dest ++ "/" ++ baseName src) = true
      · simp only [emitFilesNew, hc, hw, not_true, if_false, ite_false, ite_true] at h
        have h' : (p = dest ++ "/" ++ baseName src ∧ t = tr) ∨
            FsOp.writeTree p t ∈ (emitFilesNew env dest rest).1 := by simpa using h
        rcases h' with ⟨h1, h2⟩ | h''
        · refine ⟨src, ?_⟩
          rw [h2]
          exact List.mem_cons_self _ _
        · obtain ⟨s, hs⟩ := ih h''
          exact ⟨s, List.mem_cons_of_mem _ hs⟩
      · simp [emitFilesNew, hc, hw] at h
    · simp [emitFilesNew, hc] at h

theorem writeTree_mem_emitNewPkg (env : FsEnv) (dest : String)
    (l : List (String × File)) (p : String) (t : File)
    (h : FsOp.writeTree p t ∈ (emitNewPkg env dest l).1) : ∃ src, (src, t) ∈ l := by
  unfold emitNewPkg at h
  by_cases hrm : env.removeOk = true
  · by_cases hmk : env.mkdirOk = true
    · simp only [hrm, hmk, not_true, if_false, ite_false, ite_true] at h
      cases he : (emitFilesNew env dest l).2 with
      | none =>
        rw [he] at h
        simp only [List.mem_cons] at h
        rcases h with h | h | h
        · cases h
        · cases h
        · exact writeTree_mem_emitFilesNew env dest l p t h
      | some err =>
        rw [he] at h
        simp only [List.mem_cons, List.mem_append] at h
        rcases h with h | h | h
        · cases h
        · cases h
        · rcases h with h | h
          · exact writeTree_mem_emitFilesNew env dest l p t h
          · simp at h
    · simp [hrm, hmk] at h
  · simp [hrm] at h

theorem emitNewPkg_ok (env : FsEnv) (dest : String) (l : List (String × File))
    (hrm : env.removeOk = true) (hmk : env.mkdirOk = true)
    (h : ∀ p ∈ l, env.createOk (dest ++ "/" ++ baseName p.1) = true ∧
      env.writeOk (dest ++ "/" ++ baseName p.1) = true) :
    emitNewPkg env dest l =
      (FsOp.removeAll dest :: FsOp.mkdirAll dest ::
        (l.map fun p => [FsOp.createFile (dest ++ "/" ++ baseName p.1),
          FsOp.writeTree (dest ++ "/" ++ baseName p.1) p.2]).flatten, none) := by
  unfold emitNewPkg
  rw [emitFilesNew_ok env dest l h]
  simp [hrm, hmk]

theorem emitNewPkg_fail (env : FsEnv) (dest : String) (l : List (String × File))
    (hrm : env.removeOk = true) (hmk : env.mkdirOk = true)
    (h : ∃ p ∈ l, ¬ (env.createOk (dest ++ "/" ++ baseName p.1) = true ∧
      env.writeOk (dest ++ "/" ++ baseName p.1) = true)) :
    (emitNewPkg env dest l).2.isSome ∧
    (emitNewPkg env dest l).1.getLast? = some (FsOp.removeAll dest) := by
  obtain ⟨e, he⟩ := Option.isSome_iff_exists.mp (emitFilesNew_fail env dest l h)
  unfold emitNewPkg
  rw [he]
  simp only [hrm, hmk, not_true, if_false, ite_false, ite_true]
  constructor
  · simp
  · show (FsOp.removeAll dest :: FsOp.mkdirAll dest ::
      ((emitFilesNew env dest l).1 ++ [FsOp.removeAll dest])).getLast? = _
    rw [show FsOp.removeAll dest :: FsOp.mkdirAll dest ::
        ((emitFilesNew env dest l).1 ++ [FsOp.removeAll dest]) =
        (FsOp.removeAll dest :: FsOp.mkdirAll dest :: (emitFilesNew env dest l).1) ++
          [FsOp.removeAll dest] by simp]
    exact List.getLast?_concat _

/-- C5: when the semantic type check fails, the whole run, in either
emission mode, produces no file-system effect at all: its entire effect
trace is the diagnostic dump of every tree under check, and the checker
error is returned to the caller. -/
theorem check_failure_aborts (g path : String) (m : TypeMap)
    (files : List (String × File)) (sibs : List File) (env : FsEnv) (pt : packageTarget)
    (hpt : parsePackageTarget g path = .ok pt)
    (hchk : env.checkOk = false) :
    RewritePackage g path m files sibs env =
      ((checkedTrees pt m files sibs).map FsOp.diagDump, some RunErr.checkErr) ∧
    ∀ op ∈ (RewritePackage g path m files sibs env).1, ∃ t, op = FsOp.diagDump t := by
  have h1 : RewritePackage g path m files sibs env =
      ((checkedTrees pt m files sibs).map FsOp.diagDump, some RunErr.checkErr) := by
    unfold RewritePackage
    rw [hpt]
    simp [hchk]
  refine ⟨h1, ?_⟩
  intro op hop
  rw [h1] at hop
  obtain ⟨t, ht, rfl⟩ := List.mem_map.mp hop
  exact ⟨t, rfl⟩

/-- Witness for C5 at a concrete input: a failing check dumps the one
rewritten tree and returns the checker error, writing nothing. -/
theorem check_failure_aborts_witness :
    RewritePackage "pkg" "dst" itemMap [("a.go", twoItemFile)] [] envCheckFails =
      ([FsOp.diagDump (rewriteOneFile
          { SameDir := false, NewName := "dst", NewPath := "dst" } itemMap twoItemFile)],
        some RunErr.checkErr) := by
  have h := (check_failure_aborts "pkg" "dst" itemMap [("a.go", twoItemFile)] []
    envCheckFails { SameDir := false, NewName := "dst", NewPath := "dst" }
    rfl rfl).1
  rw [h]
  rfl

/-- C6: in new-package mode with the destination directory operations
succeeding, (success case) the run first removes any existing directory
at the destination, creates a fresh one, and serializes each rewritten
file into it under its original base name; (failure case) if creating
or writing any output file fails, the run ends in an error and its last
file-system effect is the best-effort removal of the partially created
destination directory. -/
theorem new_package_emission (g path : String) (m : TypeMap)
    (files : List (String × File)) (sibs : List File) (env : FsEnv) (pt : packageTarget)
    (hpt : parsePackageTarget g path = .ok pt)
    (hsd : pt.SameDir = false)
    (hchk : env.checkOk = true)
    (hrm : env.removeOk = true) (hmk : env.mkdirOk = true) :
    ((∀ p ∈ files, env.createOk (pt.NewPath ++ "/" ++ baseName p.1) = true ∧
        env.writeOk (pt.NewPath ++ "/" ++ baseName p.1) = true) →
      RewritePackage g path m files sibs env =
        (FsOp.removeAll pt.NewPath :: FsOp.mkdirAll pt.NewPath ::
          (files.map fun p => [FsOp.createFile (pt.NewPath ++ "/" ++ baseName p.1),
            FsOp.writeTree (pt.NewPath ++ "/" ++ baseName p.1)
              (rewriteOneFile pt m p.2)]).flatten, none)) ∧
    ((∃ p ∈ files, ¬ (env.createOk (pt.NewPath ++ "/" ++ baseName p.1) = true ∧
        env.writeOk (pt.NewPath ++ "/" ++ baseName p.1) = true)) →
      (RewritePackage g path m files sibs env).2.isSome ∧
      (RewritePackage g path m files sibs env).1.getLast? =
        some (FsOp.removeAll pt.NewPath)) := by
  have hrun : RewritePackage g path m files sibs env =
      emitNewPkg env pt.NewPath (files.map fun p => (p.1, rewriteOneFile pt m p.2)) := by
    unfold RewritePackage
    rw [hpt]
    simp [hchk, hsd]
  constructor
  · intro hcond
    have hcond' : ∀ q ∈ files.map (fun p => (p.1, rewriteOneFile pt m p.2)),
        env.createOk (pt.NewPath ++ "/" ++ baseName q.1) = true ∧
        env.writeOk (pt.NewPath ++ "/" ++ baseName q.1) = true := by
      intro q hq
      obtain ⟨p, hp, rfl⟩ := List.mem_map.mp hq
      exact hcond p hp
    rw [hrun, emitNewPkg_ok env pt.NewPath _ hrm hmk hcond']
    simp [List.map_map, Function.comp_def]
  · intro hex
    rw [hrun]
    apply emitNewPkg_fail env pt.NewPath _ hrm hmk
    obtain ⟨p, hp, hnp⟩ := hex
    exact ⟨(p.1, rewriteOneFile pt m p.2), List.mem_map_of_mem _ hp, hnp⟩

/-- Witness for C6 at concrete inputs: a clean run writes
`dst/a.go` after remove/mkdir, and a run whose second file cannot be
created ends in an error whose final effect removes the destination. -/
theorem new_package_emission_witness :
    RewritePackage "pkg" "dst" itemMap [("a.go", twoItemFile)] [] envAllOk =
      ([FsOp.removeAll "dst", FsOp.mkdirAll "dst", FsOp.createFile "dst/a.go",
        FsOp.writeTree "dst/a.go" (rewriteOneFile
          { SameDir := false, NewName := "dst", NewPath := "dst" } itemMap twoItemFile)],
        none) ∧
    (RewritePackage "pkg" "dst" itemMap
        [("a.go", twoItemFile), ("b.go", soloBoxFile)] [] envCreateBFails).2.isSome ∧
    (RewritePackage "pkg" "dst" itemMap
        [("a.go", twoItemFile), ("b.go", soloBoxFile)] [] envCreateBFails).1.getLast? =
      some (FsOp.removeAll "dst") := by
  have hok := (new_package_emission "pkg" "dst" itemMap [("a.go", twoItemFile)] [] envAllOk
    { SameDir := false, NewName := "dst", NewPath := "dst" }
    rfl rfl rfl rfl rfl).1 (by intro p hp; exact ⟨rfl, rfl⟩)
  have hfail := (new_package_emission "pkg" "dst" itemMap
    [("a.go", twoItemFile), ("b.go", soloBoxFile)] [] envCreateBFails
    { SameDir := false, NewName := "dst", NewPath := "dst" }
    rfl rfl rfl rfl rfl).2
    ⟨("b.go", soloBoxFile), by decide, by decide⟩
  refine ⟨?_, hfail.1, hfail.2⟩
  rw [hok]
  decide

/-- C7: stub declarations are checker-only: with the check passing, the
run's outcome does not depend on the sibling files at all, every
emitted tree is exactly one of the rewritten input files, and stub
extraction replaces every type spec's definition by the neutral scalar
identifier. -/
theorem stubs_checker_only (g path : String) (m : TypeMap)
    (files : List (String × File)) (sibs : List File) (env : FsEnv) (pt : packageTarget)
    (hpt : parsePackageTarget g path = .ok pt)
    (hchk : env.checkOk = true) :
    RewritePackage g path m files sibs env = RewritePackage g path m files [] env ∧
    (∀ (p : String) (t : File),
        FsOp.writeTree p t ∈ (RewritePackage g path m files sibs env).1 →
        ∃ src f, (src, f) ∈ files ∧ t = rewriteOneFile pt m f) ∧
    (∀ sf ∈ sibs, ∀ d ∈ findDecl sf, ∀ sid nm ty,
        Spec.typeSpec sid nm ty ∈ d.specs → ty = uint32Ident) := by
  have hrun : RewritePackage g path m files sibs env =
      (if pt.SameDir then emitFilesSame env pt.NewPath
        (files.map fun p => (p.1, rewriteOneFile pt m p.2))
      else emitNewPkg env pt.NewPath
        (files.map fun p => (p.1, rewriteOneFile pt m p.2))) := by
    unfold RewritePackage
    rw [hpt]
    simp [hchk]
  have hrun0 : RewritePackage g path m files [] env =
      (if pt.SameDir then emitFilesSame env pt.NewPath
        (files.map fun p => (p.1, rewriteOneFile pt m p.2))
      else emitNewPkg env pt.NewPath
        (files.map fun p => (p.1, rewriteOneFile pt m p.2))) := by
    unfold RewritePackage
    rw [hpt]
    simp [hchk]
  refine ⟨by rw [hrun, hrun0], ?_, ?_⟩
  · intro p t hmem
    rw [hrun] at hmem
    by_cases hsd : pt.SameDir = true
    · rw [if_pos hsd] at hmem
      obtain ⟨src, hs⟩ := writeTree_mem_emitFilesSame _ _ _ _ _ hmem
      obtain ⟨q, hq, heq⟩ := List.mem_map.mp hs
      obtain ⟨qa, qb⟩ := q
      injection heq with h1 h2
      exact ⟨qa, qb, hq, h2.symm⟩
    · rw [if_neg hsd] at hmem
      obtain ⟨src, hs⟩ := writeTree_mem_emitNewPkg _ _ _ _ _ hmem
      obtain ⟨q, hq, heq⟩ := List.mem_map.mp hs
      obtain ⟨qa, qb⟩ := q
      injection heq with h1 h2
      exact ⟨qa, qb, hq, h2.symm⟩
  · intro sf hsf d hd sid nm ty hs
    unfold findDecl at hd
    obtain ⟨d0, hd0, hmap⟩ := List.mem_filterMap.mp hd
    cases d0 with
    | funcDecl fd => simp at hmap
    | genDecl tok specs =>
      by_cases ht : tok = Tok.TYPE
      · simp only [ht, if_true, ite_true, Option.some.injEq] at hmap
        subst hmap
        have hs' : Spec.typeSpec sid nm ty ∈ specs.map reduceTypeSpec := hs
        obtain ⟨s, hsmem, hred⟩ := List.mem_map.mp hs'
        cases s with
        | typeSpec i nm' ty' =>
          simp only [reduceTypeSpec] at hred
          injection hred with e1 e2 e3
          exact e3.symm
        | valueSpec i nms ty' vs =>
          simp [reduceTypeSpec] at hred
      · simp [ht] at hmap

/-- Witness for C7 at a concrete input: a same-directory run with a
sibling file carrying a record declaration emits exactly what the run
with no siblings emits. -/
theorem stubs_checker_only_witness :
    RewritePackage "pkg" "." itemMap [("a.go", twoItemFile)] [sibFile] envAllOk =
      RewritePackage "pkg" "." itemMap [("a.go", twoItemFile)] [] envAllOk := by
  exact (stubs_checker_only "pkg" "." itemMap [("a.go", twoItemFile)] [sibFile] envAllOk
    { SameDir := true, NewName := "pkg", NewPath := "" } rfl rfl).1

/-- C8: a destination argument beginning with the current-directory
marker '.' selects same-directory mode with the prefix obtained by
stripping exactly the leading '.' character; that prefix is the one
used both for the output file names (`<prefix>_<base>`) and, through
the per-file rewrite, for top-level identifier prefixing. -/
theorem parsePackageTarget_dot (g path : String) (hg : g ≠ "")
    (hp : startsWithDot path = true) :
    parsePackageTarget g path =
      .ok { SameDir := true, NewName := g, NewPath := dropDot path } ∧
    (∀ (m : TypeMap) (f : File),
        rewriteOneFile { SameDir := true, NewName := g, NewPath := dropDot path } m f =
          rewriteTopLevelIdent (rewriteIdent (removeTypeDecl (rewritePkgName f g) m) m)
            (dropDot path) m) ∧
    (∀ (m : TypeMap) (files : List (String × File)) (sibs : List File) (env : FsEnv),
        env.checkOk = true →
        (∀ p ∈ files, env.createOk (dropDot path ++ "_" ++ baseName p.1) = true ∧
          env.writeOk (dropDot path ++ "_" ++ baseName p.1) = true) →
        RewritePackage g path m files sibs env =
          ((files.map fun p => [FsOp.createFile (dropDot path ++ "_" ++ baseName p.1),
            FsOp.writeTree (dropDot path ++ "_" ++ baseName p.1)
              (rewriteOneFile { SameDir := true, NewName := g, NewPath := dropDot path }
                m p.2)]).flatten, none)) := by
  have h1 : parsePackageTarget g path =
      .ok { SameDir := true, NewName := g, NewPath := dropDot path } := by
    simp [parsePackageTarget, hp, hg]
  refine ⟨h1, fun m f => rfl, ?_⟩
  intro m files sibs env hchk hcond
  have hrun : RewritePackage g path m files sibs env =
      emitFilesSame env (dropDot path) (files.map fun p =>
        (p.1, rewriteOneFile { SameDir := true, NewName := g, NewPath := dropDot path }
          m p.2)) := by
    unfold RewritePackage
    rw [h1]
    simp [hchk]
  have hcond' : ∀ q ∈ files.map (fun p =>
      (p.1, rewriteOneFile { SameDir := true, NewName := g, NewPath := dropDot path }
        m p.2)),
      env.createOk (dropDot path ++ "_" ++ baseName q.1) = true ∧
      env.writeOk (dropDot path ++ "_" ++ baseName q.1) = true := by
    intro q hq
    obtain ⟨p, hp', rfl⟩ := List.mem_map.mp hq
    exact hcond p hp'
  rw [hrun, emitFilesSame_ok env (dropDot path) _ hcond']
  simp [List.map_map, Function.comp_def]

/-- Witness for C8 at a concrete input: destination "." yields the
empty prefix, output file `_a.go`, and "./x" strips to "/x". -/
theorem parsePackageTarget_dot_witness :
    parsePackageTarget "pkg" "." =
      .ok { SameDir := true, NewName := "pkg", NewPath := dropDot "." } ∧
    (dropDot "." = "") ∧ (dropDot "./x" = "/x") ∧
    RewritePackage "pkg" "." itemMap [("a.go", twoItemFile)] [] envAllOk =
      ([FsOp.createFile "_a.go", FsOp.writeTree "_a.go"
          (rewriteOneFile { SameDir := true, NewName := "pkg", NewPath := "" }
            itemMap twoItemFile)], none) := by
  obtain ⟨h1, h2, h3⟩ := parsePackageTarget_dot "pkg" "." (by decide) (by decide)
  have h4 := h3 itemMap [("a.go", twoItemFile)] [] envAllOk rfl
    (by intro p hp; exact ⟨rfl, rfl⟩)
  refine ⟨h1, by decide, by decide, ?_⟩
  rw [h4]
  decide

end Generic
